import Mathlib

/-!
Shallow embedding of the core of `midi_editor.py` (a 4-track MIDI step
sequencer): the note-grid edit operation (`canvas_click`), the playback
scheduling loop (`playback_loop`), the stop path (`toggle_playback` /
`stop_all_notes`), and the JSON persistence codec (`save_to_file` /
`load_from_file`).

Modelling conventions:
* Python numbers are embedded as `ℚ` (exact arithmetic; the source's
  quantization inputs of interest are dyadic rationals, where binary
  floating point and exact arithmetic agree).
* Python's built-in `round` is round-half-to-even (banker's rounding);
  `pythonRound` mirrors it on `ℚ`.
* Mutable state is passed explicitly; the playback thread's per-tick reads
  of the shared editor state are modelled by giving each tick the state it
  observed.
* MIDI `send` calls are modelled as appended events; send failures are
  caught and ignored by the source (`try/except` around each send), so the
  event trace records the attempted sends.
-/

namespace MidiEditor

/-- Floor of a rational, written out on the `num`/`den` representation so
that it evaluates by kernel reduction. -/
def ratFloor (q : ℚ) : ℤ := q.num / q.den

theorem ratFloor_eq_floor (q : ℚ) : ratFloor q = ⌊q⌋ :=
  Rat.floor_def.symm

/-- Python's `round` on an exact rational: round to the nearest integer,
with exact half-way ties going to the even integer (banker's rounding). -/
def pythonRound (q : ℚ) : ℤ :=
  let f : ℤ := ratFloor q
  let frac : ℚ := q - f
  if frac < 1/2 then f
  else if 1/2 < frac then f + 1
  else if f % 2 = 0 then f else f + 1

/-- `canvas_click` line 428: `beat = round(beat * BEAT_SUBDIVISIONS) / BEAT_SUBDIVISIONS`
with `BEAT_SUBDIVISIONS = 4`. -/
def quantize (rawBeat : ℚ) : ℚ :=
  (pythonRound (rawBeat * 4) : ℚ) / 4

/-- `Note` dataclass: `pitch`, `start` (beats), `duration` (beats),
`velocity` (default 100). Python is dynamically typed; all numeric fields
are embedded as `ℚ`. -/
structure Note where
  pitch : ℚ
  start : ℚ
  duration : ℚ
  velocity : ℚ
deriving DecidableEq

inductive ToggleResult where
  | removed
  | inserted
deriving DecidableEq

/-- The span-membership test of the removal scan (lines 433-434):
`note.pitch == pitch and note.start <= beat < note.start + note.duration`. -/
def spanMatch (pitch beat : ℚ) (n : Note) : Prop :=
  n.pitch = pitch ∧ n.start ≤ beat ∧ beat < n.start + n.duration

instance (pitch beat : ℚ) (n : Note) : Decidable (spanMatch pitch beat n) := by
  unfold spanMatch; infer_instance

/-- The removal scan of `canvas_click` (lines 431-438): walk `track.notes`
and remove the first note with `note.pitch == pitch and
note.start <= beat < note.start + note.duration`, if any.
(Python finds the first such note and calls `list.remove`, which deletes
the first element *equal* to it; any earlier equal element would satisfy
the same predicate, so the element deleted is exactly the first match.) -/
def removeFirst (pitch beat : ℚ) : List Note → Option (List Note)
  | [] => none
  | n :: rest =>
    if spanMatch pitch beat n
    then some rest
    else (removeFirst pitch beat rest).map (n :: ·)

/-- `canvas_click` (lines 420-444) acting on one track's note list: quantize
the raw beat, remove the first note whose span contains it, otherwise append
`Note(pitch, beat, 0.25, 100)`.  (The pixel-to-pitch / pixel-to-beat
geometry of the handler is UI concern; the model takes the pitch and the
raw beat directly.) -/
def canvas_click (notes : List Note) (pitch rawBeat : ℚ) :
    List Note × ToggleResult :=
  let beat := quantize rawBeat
  match removeFirst pitch beat notes with
  | some notes' => (notes', .removed)
  | none => (notes ++ [⟨pitch, beat, 1/4, 100⟩], .inserted)

/-- A sequence of clicks applied to a track's note list, oldest first. -/
def applyClicks (ops : List (ℚ × ℚ)) (notes : List Note) : List Note :=
  ops.foldl (fun ns op => (canvas_click ns op.1 op.2).1) notes

example : quantize (27/100) = 1/4 := by with_unfolding_all rfl
example : quantize (37/100) = 1/4 := by with_unfolding_all rfl
example : quantize (5/8) = 1/2 := by with_unfolding_all rfl
example : quantize (3/8) = 1/2 := by with_unfolding_all rfl
example : quantize (7/8) = 1 := by with_unfolding_all rfl
example : canvas_click [⟨60, 1, 1/2, 100⟩] 60 (5/4) = ([], .removed) := by
  with_unfolding_all rfl
example : canvas_click [⟨60, 1, 1/2, 100⟩] 60 (3/2) =
    ([⟨60, 1, 1/2, 100⟩, ⟨60, 3/2, 1/4, 100⟩], .inserted) := by
  with_unfolding_all rfl

/-! ### Basic properties of the quantizer and the toggle scan -/

theorem pythonRound_def (q : ℚ) :
    pythonRound q =
      if q - (⌊q⌋ : ℚ) < 1/2 then ⌊q⌋
      else if 1/2 < q - (⌊q⌋ : ℚ) then ⌊q⌋ + 1
      else if ⌊q⌋ % 2 = 0 then ⌊q⌋ else ⌊q⌋ + 1 := by
  unfold pythonRound
  rw [ratFloor_eq_floor]

/-- `pythonRound` returns an integer within 1/2 of its argument. -/
theorem pythonRound_near (q : ℚ) : |q - (pythonRound q : ℚ)| ≤ 1/2 := by
  have h0 : 0 ≤ q - (⌊q⌋ : ℚ) := sub_nonneg.mpr (Int.floor_le q)
  have h1 : q - (⌊q⌋ : ℚ) < 1 := by
    have := Int.lt_floor_add_one q; linarith
  rw [pythonRound_def]
  split_ifs <;> rw [abs_le] <;> constructor <;> push_cast <;> linarith

/-- The quantized beat is always an integer multiple of 1/4. -/
theorem quantize_grid (b : ℚ) : ∃ z : ℤ, quantize b = (z : ℚ) / 4 :=
  ⟨pythonRound (b * 4), rfl⟩

/-- The quantized beat is within 1/8 of the raw beat (nearest 1/4-grid line). -/
theorem quantize_near (b : ℚ) : |b - quantize b| ≤ 1/8 := by
  have h := pythonRound_near (b * 4)
  rw [abs_le] at h ⊢
  unfold quantize
  constructor <;> [linarith [h.1]; linarith [h.2]]

/-- Two 1/4-grid points whose distance is less than 1/4 coincide. -/
theorem grid_eq_of_close {z w : ℤ} (h1 : (z : ℚ)/4 ≤ (w : ℚ)/4)
    (h2 : (w : ℚ)/4 < (z : ℚ)/4 + 1/4) : (z : ℚ)/4 = (w : ℚ)/4 := by
  have hz : (z : ℚ) ≤ (w : ℚ) := by linarith
  have hw : (w : ℚ) < (z : ℚ) + 1 := by linarith
  have : z = w := by
    have hz' : z ≤ w := by exact_mod_cast hz
    have hw' : w < z + 1 := by exact_mod_cast hw
    omega
  rw [this]

theorem removeFirst_eq_none_iff (p b : ℚ) (notes : List Note) :
    removeFirst p b notes = none ↔ ∀ n ∈ notes, ¬ spanMatch p b n := by
  induction notes with
  | nil => simp [removeFirst]
  | cons m rest ih =>
    by_cases hm : spanMatch p b m
    · rw [removeFirst, if_pos hm]
      simp only [List.mem_cons]
      constructor
      · intro h; cases h
      · intro h; exact absurd hm (h m (Or.inl rfl))
    · rw [removeFirst, if_neg hm, Option.map_eq_none']
      rw [ih]
      simp only [List.mem_cons]
      constructor
      · intro h n hn
        rcases hn with rfl | hn
        · exact hm
        · exact h n hn
      · intro h n hn; exact h n (Or.inr hn)

theorem removeFirst_eq_some (p b : ℚ) (l1 : List Note) (n : Note) (l2 : List Note)
    (h1 : ∀ m ∈ l1, ¬ spanMatch p b m) (h2 : spanMatch p b n) :
    removeFirst p b (l1 ++ n :: l2) = some (l1 ++ l2) := by
  induction l1 with
  | nil => rw [List.nil_append, removeFirst, if_pos h2, List.nil_append]
  | cons m l1' ih =>
    have hm : ¬ spanMatch p b m := h1 m (List.mem_cons_self m l1')
    rw [List.cons_append, removeFirst, if_neg hm,
      ih (fun m' hm' => h1 m' (List.mem_cons_of_mem m hm'))]
    rfl

/-- Inversion: a successful removal scan splits the list at the first
span-matching note. -/
theorem removeFirst_spec (p b : ℚ) (notes r : List Note)
    (h : removeFirst p b notes = some r) :
    ∃ l1 n l2, notes = l1 ++ n :: l2 ∧ r = l1 ++ l2 ∧ spanMatch p b n ∧
      ∀ m ∈ l1, ¬ spanMatch p b m := by
  induction notes generalizing r with
  | nil => simp [removeFirst] at h
  | cons m rest ih =>
    by_cases hm : spanMatch p b m
    · rw [removeFirst, if_pos hm, Option.some.injEq] at h
      exact ⟨[], m, rest, rfl, by simp [h.symm], hm, by simp⟩
    · rw [removeFirst, if_neg hm, Option.map_eq_some'] at h
      obtain ⟨r', hr', rfl⟩ := h
      obtain ⟨l1, n, l2, hsplit, hres, hmatch, hnone⟩ := ih r' hr'
      refine ⟨m :: l1, n, l2, by simp [hsplit], by simp [hres], hmatch, ?_⟩
      intro m' hm'
      rcases List.mem_cons.mp hm' with rfl | hm'
      · exact hm
      · exact hnone m' hm'

theorem canvas_click_def (notes : List Note) (p b : ℚ) :
    canvas_click notes p b =
      match removeFirst p (quantize b) notes with
      | some notes' => (notes', .removed)
      | none => (notes ++ [⟨p, quantize b, 1/4, 100⟩], .inserted) := rfl

theorem canvas_click_some (notes r : List Note) (p b : ℚ)
    (h : removeFirst p (quantize b) notes = some r) :
    canvas_click notes p b = (r, .removed) := by
  rw [canvas_click_def, h]

theorem canvas_click_none (notes : List Note) (p b : ℚ)
    (h : removeFirst p (quantize b) notes = none) :
    canvas_click notes p b = (notes ++ [⟨p, quantize b, 1/4, 100⟩], .inserted) := by
  rw [canvas_click_def, h]

theorem applyClicks_nil (s : List Note) : applyClicks [] s = s := rfl

theorem applyClicks_cons (op : ℚ × ℚ) (ops : List (ℚ × ℚ)) (s : List Note) :
    applyClicks (op :: ops) s = applyClicks ops (canvas_click s op.1 op.2).1 := rfl

/-! ### Claim C3 -/

/-- Claim C3: for every track state and every call `toggle(pitch, rawBeat)`,
if some existing note has `note.pitch == pitch` and
`note.start <= quantizedBeat < note.start + note.duration`, that note (the
first such) is removed with result `Removed`; otherwise a new note with
`start = quantizedBeat`, duration 0.25 beats, velocity 100 is appended with
result `Inserted`; there is no other outcome. -/
theorem C3_toggle_removes_or_inserts (notes : List Note) (p b : ℚ) :
    ((canvas_click notes p b).2 = .removed ↔
      ∃ n ∈ notes, spanMatch p (quantize b) n) ∧
    (∀ l1 n l2, notes = l1 ++ n :: l2 → spanMatch p (quantize b) n →
      (∀ m ∈ l1, ¬ spanMatch p (quantize b) m) →
      canvas_click notes p b = (l1 ++ l2, .removed)) ∧
    ((∀ n ∈ notes, ¬ spanMatch p (quantize b) n) →
      canvas_click notes p b = (notes ++ [⟨p, quantize b, 1/4, 100⟩], .inserted)) := by
  refine ⟨⟨?_, ?_⟩, ?_, ?_⟩
  · intro h
    cases hrf : removeFirst p (quantize b) notes with
    | none => rw [canvas_click_none _ _ _ hrf] at h; cases h
    | some r =>
      obtain ⟨l1, n, l2, hsplit, _, hmatch, _⟩ := removeFirst_spec _ _ _ _ hrf
      exact ⟨n, by rw [hsplit]; simp, hmatch⟩
  · rintro ⟨n, hn, hmatch⟩
    cases hrf : removeFirst p (quantize b) notes with
    | none => exact absurd hmatch ((removeFirst_eq_none_iff _ _ _).mp hrf n hn)
    | some r => rw [canvas_click_some _ _ _ _ hrf]
  · intro l1 n l2 hsplit hmatch hnone
    refine canvas_click_some _ _ _ _ ?_
    rw [hsplit]
    exact removeFirst_eq_some _ _ l1 n l2 hnone hmatch
  · intro hnone
    exact canvas_click_none _ _ _ ((removeFirst_eq_none_iff _ _ _).mpr hnone)

/-- Witness for C3 at a concrete input: the spec's own example, a click at
beat 1.25 inside the span of `{pitch 60, start 1.0, duration 0.5}` removes
that note. -/
theorem C3_toggle_removes_or_inserts_witness :
    canvas_click [⟨60, 1, 1/2, 100⟩] 60 (5/4) = ([], ToggleResult.removed) := by
  have h := (C3_toggle_removes_or_inserts [⟨60, 1, 1/2, 100⟩] 60 (5/4)).2.1
    [] ⟨60, 1, 1/2, 100⟩ [] rfl (by with_unfolding_all decide) (by simp)
  simpa using h

/-! ### Claim C4 -/

/-- Claim C4 counterexample: the claim asserts `toggle(60, 0.37)` inserts a
note with `start = 0.5`; the code quantizes 0.37 to 0.25 (Python `round` is
round-half-to-even, and 1.48 rounds to 1, not 2), so the inserted start is
0.25, not 0.5. -/
theorem C4_quantization_cx :
    (canvas_click [] 60 (37/100)).1 = [⟨60, 1/4, 1/4, 100⟩] ∧ ((1 : ℚ)/4 ≠ 1/2) := by
  with_unfolding_all decide

/-- Claim C4 (amended): `toggle` quantizes the raw beat to
`round(rawBeat * 4) / 4` where `round` is Python's round-half-to-even, so
the result is the nearest quarter-beat (always within 1/8 of the raw beat)
with exact half-way ties rounding to the even multiple of 1/4, not upward:
`toggle(60, 0.27)` inserts at 0.25, `toggle(60, 0.37)` also inserts at 0.25
(0.37 is nearer 0.25 than 0.5), and the tie cases 0.625 and 0.875 insert at
0.5 and 1.0 respectively (0.375 also goes to 0.5). -/
theorem C4_amended_quantization :
    (∀ b : ℚ, (canvas_click [] 60 b).1 = [⟨60, quantize b, 1/4, 100⟩]) ∧
    (∀ b : ℚ, quantize b = (pythonRound (b * 4) : ℚ) / 4 ∧ |b - quantize b| ≤ 1/8) ∧
    (canvas_click [] 60 (27/100)).1 = [⟨60, 1/4, 1/4, 100⟩] ∧
    (canvas_click [] 60 (37/100)).1 = [⟨60, 1/4, 1/4, 100⟩] ∧
    (canvas_click [] 60 (5/8)).1 = [⟨60, 1/2, 1/4, 100⟩] ∧
    (canvas_click [] 60 (7/8)).1 = [⟨60, 1, 1/4, 100⟩] ∧
    (canvas_click [] 60 (3/8)).1 = [⟨60, 1/2, 1/4, 100⟩] := by
  refine ⟨fun b => rfl, fun b => ⟨rfl, quantize_near b⟩, ?_, ?_, ?_, ?_, ?_⟩ <;>
    with_unfolding_all decide

/-! ### Claims C5 and C6 -/

/-- No two notes of the list share the `(pitch, start)` pair. -/
def distinctPS (notes : List Note) : Prop :=
  List.Pairwise (fun a b => ¬(a.pitch = b.pitch ∧ a.start = b.start)) notes

/-- Shape of every note ever inserted by `canvas_click`: duration 1/4,
velocity 100, start on the 1/4-beat grid. -/
def gridNote (n : Note) : Prop :=
  n.duration = 1/4 ∧ n.velocity = 100 ∧ ∃ z : ℤ, n.start = (z : ℚ) / 4

/-- Invariant of every track state reachable from the empty grid by
`canvas_click` operations. -/
def toggleInv (notes : List Note) : Prop :=
  (∀ n ∈ notes, gridNote n) ∧ distinctPS notes

theorem canvas_click_toggleInv (notes : List Note) (p b : ℚ)
    (h : toggleInv notes) : toggleInv (canvas_click notes p b).1 := by
  obtain ⟨hgood, hdis⟩ := h
  cases hrf : removeFirst p (quantize b) notes with
  | some r =>
    rw [canvas_click_some _ _ _ _ hrf]
    obtain ⟨l1, n, l2, hsplit, hres, _, _⟩ := removeFirst_spec _ _ _ _ hrf
    subst hres
    have hsub : (l1 ++ l2).Sublist notes := by
      rw [hsplit]
      exact (List.sublist_cons_self n l2).append_left l1
    exact ⟨fun m hm => hgood m (hsub.subset hm), hdis.sublist hsub⟩
  | none =>
    rw [canvas_click_none _ _ _ hrf]
    constructor
    · intro m hm
      rcases List.mem_append.mp hm with hm | hm
      · exact hgood m hm
      · rcases List.mem_singleton.mp hm with rfl
        exact ⟨rfl, rfl, quantize_grid b⟩
    · rw [distinctPS, List.pairwise_append]
      refine ⟨hdis, List.pairwise_singleton _ _, ?_⟩
      intro a ha m hm
      rcases List.mem_singleton.mp hm with rfl
      rintro ⟨hp, hs⟩
      obtain ⟨hd, _, _⟩ := hgood a ha
      refine (removeFirst_eq_none_iff _ _ _).mp hrf a ha ⟨hp, le_of_eq hs, ?_⟩
      rw [hs, hd]
      norm_num

theorem applyClicks_toggleInv (ops : List (ℚ × ℚ)) (s : List Note)
    (h : toggleInv s) : toggleInv (applyClicks ops s) := by
  induction ops generalizing s with
  | nil => exact h
  | cons op rest ih =>
    rw [applyClicks_cons]
    exact ih _ (canvas_click_toggleInv s op.1 op.2 h)

theorem toggleInv_empty : toggleInv [] := ⟨by simp, List.Pairwise.nil⟩

/-- Claim C5: for every finite sequence of toggles applied to an initially
empty track, no two notes ever share the `(pitch, start)` pair.  (Every
intermediate state is itself `applyClicks` of a prefix of the operations,
so quantifying over all operation lists covers all intermediate states.) -/
theorem C5_no_duplicate_invariant (ops : List (ℚ × ℚ)) :
    distinctPS (applyClicks ops []) :=
  (applyClicks_toggleInv ops [] toggleInv_empty).2

theorem canvas_click_twice_of_inv (notes : List Note) (p b : ℚ)
    (h : toggleInv notes) :
    ((canvas_click (canvas_click notes p b).1 p b).1 : Multiset Note) =
      (notes : Multiset Note) := by
  obtain ⟨hgood, hdis⟩ := h
  obtain ⟨w, hq⟩ := quantize_grid b
  cases hrf : removeFirst p (quantize b) notes with
  | some r =>
    obtain ⟨l1, n, l2, hsplit, hres, hmatch, _⟩ := removeFirst_spec _ _ _ _ hrf
    subst hres
    rw [canvas_click_some _ _ _ _ hrf]
    have hn_mem : n ∈ notes := by rw [hsplit]; simp
    obtain ⟨hd, hv, z, hs⟩ := hgood n hn_mem
    have hstart : n.start = quantize b := by
      rw [hs, hq]
      refine grid_eq_of_close ?_ ?_
      · rw [← hs, ← hq]; exact hmatch.2.1
      · rw [← hs, ← hq]
        have := hmatch.2.2
        rw [hd] at this
        linarith
    have hn : n = ⟨p, quantize b, 1/4, 100⟩ := by
      cases n with
      | mk pi st du ve =>
        simp only [Note.mk.injEq]
        exact ⟨hmatch.1, hstart, hd, hv⟩
    have hnomatch : ∀ m ∈ l1 ++ l2, ¬ spanMatch p (quantize b) m := by
      intro m hm hsm
      have hm_mem : m ∈ notes := by
        rw [hsplit]
        rcases List.mem_append.mp hm with hm | hm
        · exact List.mem_append.mpr (Or.inl hm)
        · exact List.mem_append.mpr (Or.inr (List.mem_cons_of_mem n hm))
      obtain ⟨hd', _, z', hs'⟩ := hgood m hm_mem
      have hmstart : m.start = quantize b := by
        rw [hs', hq]
        refine grid_eq_of_close ?_ ?_
        · rw [← hs', ← hq]; exact hsm.2.1
        · rw [← hs', ← hq]
          have := hsm.2.2
          rw [hd'] at this
          linarith
      have hdis' := hdis
      rw [hsplit] at hdis'
      rcases List.mem_append.mp hm with hm | hm
      · have := (List.pairwise_append.mp hdis').2.2 m hm n (List.mem_cons_self n l2)
        exact this ⟨hsm.1.trans hmatch.1.symm, hmstart.trans hstart.symm⟩
      · have hpair := List.pairwise_append.mp hdis'
        have := (List.pairwise_cons.mp hpair.2.1).1 m hm
        exact this ⟨hmatch.1.trans hsm.1.symm, hstart.trans hmstart.symm⟩
    rw [canvas_click_none _ _ _ ((removeFirst_eq_none_iff _ _ _).mpr hnomatch)]
    rw [hsplit]
    refine Multiset.coe_eq_coe.mpr ?_
    show ((l1 ++ l2) ++ [(⟨p, quantize b, 1/4, 100⟩ : Note)]).Perm (l1 ++ n :: l2)
    rw [← hn, List.append_assoc]
    exact (List.perm_append_singleton n l2).append_left l1
  | none =>
    rw [canvas_click_none _ _ _ hrf]
    have hnone := (removeFirst_eq_none_iff _ _ _).mp hrf
    have hnew : spanMatch p (quantize b) ⟨p, quantize b, 1/4, 100⟩ := by
      refine ⟨rfl, le_refl _, ?_⟩
      show quantize b < quantize b + 1/4
      norm_num
    have hsome : removeFirst p (quantize b)
        (notes ++ [(⟨p, quantize b, 1/4, 100⟩ : Note)]) = some (notes ++ []) :=
      removeFirst_eq_some _ _ notes _ [] hnone hnew
    rw [canvas_click_some _ _ _ _ hsome]
    simp

/-- Claim C6 counterexample: the claim quantifies over *every* track state.
On the (non-toggle-reachable) state holding one note of duration 0.5,
toggling twice at beat 1.25 removes the long note and then inserts a fresh
quarter-beat note, so the note set is not restored. -/
theorem C6_double_toggle_cx :
    (canvas_click (canvas_click [⟨60, 1, 1/2, 100⟩] 60 (5/4)).1 60 (5/4)).1 =
      [⟨60, 5/4, 1/4, 100⟩] ∧
    (⟨60, 1, 1/2, 100⟩ : Note) ∈ [(⟨60, 1, 1/2, 100⟩ : Note)] ∧
    (⟨60, 1, 1/2, 100⟩ : Note) ∉ [(⟨60, 5/4, 1/4, 100⟩ : Note)] := by
  with_unfolding_all decide

/-! ### Playback scheduler model

`playback_loop` (lines 500-548) runs on a thread while `is_playing`.  The
shared mutable editor state it reads each iteration (the track list and
`self.bpm`) is modelled by giving each tick the snapshot it observed; the
wall clock is modelled by each tick's `elapsed` value.  Stopping (another
actor clearing `is_playing`) is modelled by the input list ending.  MIDI
sends are recorded as events; each event derived from an `active_notes`
key is tagged with that key for specification purposes (the tag adds
nothing to the computation — the branch taken already determines it).
The program-change sends of `toggle_playback`'s start path (lines 491-493)
precede the loop and are not part of the modelled tick stream. -/

/-- `Track.__init__` (lines 70-80).  `port_handle` (the memoized mido port
object) is represented by the run-level port-availability function
`avail` instead of a per-track field; numeric fields are `ℚ` (dynamic
typing). -/
structure Track where
  id : ℚ
  name : String
  notes : List Note
  color : String
  muted : Bool
  midi_port : Option String
  midi_channel : ℚ
  instrument : ℚ
deriving DecidableEq

/-- Scheduling identity of a note: `(track.id, note.pitch, note.start)`
(line 523). -/
abbrev NoteId : Type := ℚ × ℚ × ℚ

/-- Value stored in `active_notes[note_id]`:
`(port, track.midi_channel, note.pitch)` captured at note-on time
(line 530); the port handle is identified by the port name. -/
abbrev PortInfo : Type := String × ℚ × ℚ

/-- The `active_notes` dict: an insertion-ordered association list, like a
Python dict (new keys append; deletion removes the entry). -/
abbrev ActiveMap : Type := List (NoteId × PortInfo)

def amLookup (k : NoteId) : ActiveMap → Option PortInfo
  | [] => none
  | e :: r => if e.1 = k then some e.2 else amLookup k r

def amErase (k : NoteId) : ActiveMap → ActiveMap
  | [] => []
  | e :: r => if e.1 = k then r else e :: amErase k r

def amKeys (act : ActiveMap) : List NoteId := act.map Prod.fst

/-- One attempted MIDI send.  `noteOn`/`noteOff` sends triggered by an
`active_notes` key carry that key as a specification tag;
`stop_all_notes`'s blanket note-offs carry none. -/
inductive Ev where
  | noteOn (tag : NoteId) (port : String) (channel pitch velocity : ℚ)
  | noteOff (tag : Option NoteId) (port : String) (channel pitch : ℚ)
deriving DecidableEq

def Ev.onTag : Ev → Option NoteId
  | .noteOn tag _ _ _ _ => some tag
  | .noteOff _ _ _ _ => none

def Ev.offTag : Ev → Option NoteId
  | .noteOn _ _ _ _ _ => none
  | .noteOff tag _ _ _ => tag

/-- Track id responsible for an event (the first component of its tag). -/
def Ev.tagTrack : Ev → Option ℚ
  | .noteOn tag _ _ _ _ => some tag.1
  | .noteOff (some tag) _ _ _ => some tag.1
  | .noteOff none _ _ _ => none

/-- Line 523: `note_id = (track.id, note.pitch, note.start)`. -/
def mkNoteId (trackId : ℚ) (n : Note) : NoteId := (trackId, n.pitch, n.start)

/-- Lines 522-536: the per-note branch of the tick body.  `t` is the value
just assigned to `self.current_time`; `acc` carries `active_notes` and the
events sent so far.  The note-off re-reads nothing from the track: it uses
the `(port, channel, pitch)` captured at note-on time (lines 534-535). -/
def noteStep (trackId channel : ℚ) (portName : String) (t : ℚ)
    (acc : ActiveMap × List Ev) (n : Note) : ActiveMap × List Ev :=
  if n.start ≤ t ∧ t < n.start + n.duration then
    match amLookup (mkNoteId trackId n) acc.1 with
    | none =>
        (acc.1 ++ [(mkNoteId trackId n, (portName, channel, n.pitch))],
         acc.2 ++ [.noteOn (mkNoteId trackId n) portName channel n.pitch n.velocity])
    | some _ => acc
  else
    match amLookup (mkNoteId trackId n) acc.1 with
    | some v =>
        if n.start + n.duration ≤ t then
          (amErase (mkNoteId trackId n) acc.1,
           acc.2 ++ [.noteOff (some (mkNoteId trackId n)) v.1 v.2.1 v.2.2])
        else acc
    | none => acc

/-- Lines 514-520: a muted track, a track with no port, and a track whose
port fails to open are skipped entirely — note-offs included. -/
def trackStep (avail : String → Bool) (t : ℚ)
    (acc : ActiveMap × List Ev) (tr : Track) : ActiveMap × List Ev :=
  if tr.muted then acc
  else
    match tr.midi_port with
    | none => acc
    | some pn =>
      if avail pn then tr.notes.foldl (noteStep tr.id tr.midi_channel pn t) acc
      else acc

/-- One full pass over `self.tracks` (lines 514-536). -/
def tickStep (avail : String → Bool) (t : ℚ) (tracks : List Track)
    (act : ActiveMap) : ActiveMap × List Ev :=
  tracks.foldl (trackStep avail t) (act, [])

/-- What the playback thread observes at one loop iteration: the elapsed
wall clock (`time.time() - start_time`, in seconds) and the shared editor
state as read at that instant.  `bpmNow` is the value of `self.bpm` at the
tick — carried to state Claim C7, though the loop never re-reads it. -/
structure TickIn where
  elapsed : ℚ
  tracks : List Track
  bpmNow : ℚ
deriving DecidableEq

/-- Line 502: `ms_per_beat = 60000 / self.bpm`, computed once before the
loop from the BPM current at start. -/
def ms_per_beat (bpm : ℚ) : ℚ := 60000 / bpm

/-- Line 508: `self.current_time = (current_real_time / ms_per_beat) * 1000`. -/
def posOf (bpm0 elapsed : ℚ) : ℚ := elapsed / ms_per_beat bpm0 * 1000

/-- The `while self.is_playing and self.current_time < BEATS` loop
(lines 506-538), `BEATS = 16`.  `prev` is `self.current_time` at the loop
test (0 on entry: set by `__init__` or by the previous run's cleanup);
each processed iteration records the position it computed, the tracks it
saw, and the events it sent. -/
def runTicks (avail : String → Bool) (bpm0 : ℚ) :
    ℚ → List TickIn → ActiveMap →
      List (ℚ × List Track × List Ev) × ActiveMap
  | _, [], act => ([], act)
  | prev, inp :: rest, act =>
    if prev < 16 then
      let t := posOf bpm0 inp.elapsed
      let s := tickStep avail t inp.tracks act
      let r := runTicks avail bpm0 t rest s.1
      ((t, inp.tracks, s.2) :: r.1, r.2)
    else ([], act)

/-- Lines 546-548: the cleanup at loop exit sends one note-off per entry
still in `active_notes`, using the captured `(port, channel, pitch)`. -/
def flushEvents (act : ActiveMap) : List Ev :=
  act.map (fun e => .noteOff (some e.1) e.2.1 e.2.2.1 e.2.2.2)

/-- `stop_all_notes` (lines 568-580): for every track with a port that
opens, send a note-off for every pitch 0..127 on the track's *current*
channel. -/
def stop_all_notes (avail : String → Bool) (tracks : List Track) : List Ev :=
  (tracks.map (fun tr =>
    match tr.midi_port with
    | none => []
    | some pn =>
      if avail pn then
        (List.range 128).map (fun k : ℕ => Ev.noteOff none pn tr.midi_channel (k : ℚ))
      else [])).flatten

structure StopOutcome where
  events : List Ev
  position : ℚ
deriving DecidableEq

/-- Pressing STOP while playing (`toggle_playback`, lines 485-489):
`is_playing` is cleared (ending the tick stream), `current_time` is set to
0, and `stop_all_notes` fires; the playback thread then leaves its loop
and its cleanup (lines 540-548) flushes `active_notes` (and sets
`current_time` to 0 again). -/
def toggle_playback_stop (avail : String → Bool) (bpm0 : ℚ)
    (ins : List TickIn) (tracksAtStop : List Track) : StopOutcome :=
  let r := runTicks avail bpm0 0 ins []
  { events := (r.1.map (fun o => o.2.2)).flatten ++ stop_all_notes avail tracksAtStop
      ++ flushEvents r.2
    position := 0 }

/-- Events for one scheduling identity: the note-ons and note-offs whose
tag is that identity. -/
def evFor (nid : NoteId) (evs : List Ev) : List Ev :=
  evs.filter (fun e => decide (e.onTag = some nid ∨ e.offTag = some nid))

def countOn (nid : NoteId) (evs : List Ev) : ℕ :=
  evs.countP (fun e => decide (e.onTag = some nid))

def countOff (nid : NoteId) (evs : List Ev) : ℕ :=
  evs.countP (fun e => decide (e.offTag = some nid))

def keyCount (nid : NoteId) (act : ActiveMap) : ℕ :=
  (amKeys act).count nid

/-- Claim C6 (amended): on every track state *reachable from the empty grid
by toggle operations* (where every note has duration 0.25, velocity 100 and
a quarter-beat-aligned start), toggling the same `(pitch, rawBeat)` twice
in succession returns the track to exactly its prior note multiset. -/
theorem C6_amended_double_toggle (ops : List (ℚ × ℚ)) (p b : ℚ) :
    ((canvas_click (canvas_click (applyClicks ops []) p b).1 p b).1 :
        Multiset Note) =
      (applyClicks ops [] : Multiset Note) :=
  canvas_click_twice_of_inv _ p b (applyClicks_toggleInv ops [] toggleInv_empty)

/-! ### Equation lemmas for the loop -/

theorem runTicks_nil (avail : String → Bool) (bpm0 prev : ℚ) (act : ActiveMap) :
    runTicks avail bpm0 prev [] act = ([], act) := rfl

theorem runTicks_cons_lt (avail : String → Bool) (bpm0 prev : ℚ) (inp : TickIn)
    (rest : List TickIn) (act : ActiveMap) (h : prev < 16) :
    runTicks avail bpm0 prev (inp :: rest) act =
      ((posOf bpm0 inp.elapsed, inp.tracks,
          (tickStep avail (posOf bpm0 inp.elapsed) inp.tracks act).2) ::
        (runTicks avail bpm0 (posOf bpm0 inp.elapsed) rest
          (tickStep avail (posOf bpm0 inp.elapsed) inp.tracks act).1).1,
       (runTicks avail bpm0 (posOf bpm0 inp.elapsed) rest
          (tickStep avail (posOf bpm0 inp.elapsed) inp.tracks act).1).2) := by
  rw [runTicks, if_pos h]

theorem runTicks_cons_ge (avail : String → Bool) (bpm0 prev : ℚ) (inp : TickIn)
    (rest : List TickIn) (act : ActiveMap) (h : ¬ prev < 16) :
    runTicks avail bpm0 prev (inp :: rest) act = ([], act) := by
  rw [runTicks, if_neg h]

/-! ### Claim C7 -/

/-- Claim C7 counterexample: a run started at 120 BPM, one tick at elapsed
1 s, with `self.bpm` edited to 240 before that tick.  The claim's formula
(bpm read at tick time) gives position 4.0, but the loop converts with
`ms_per_beat` computed once at start (line 502), giving 2.0. -/
theorem C7_position_cx :
    ((runTicks (fun _ => true) 120 0 [⟨1, [], 240⟩] []).1.map (fun o => o.1)
        = [2]) ∧
    1000 * (1 : ℚ) / ms_per_beat 240 = 4 ∧ (2 : ℚ) ≠ 4 := by
  with_unfolding_all decide

/-- Claim C7 (amended): on every processed tick the position equals
`elapsedWallClockMs / msPerBeat` where `msPerBeat = 60000 / bpm₀` and
`bpm₀` is the BPM captured once when playback started; the tick-time value
of `self.bpm` (the `bpmNow` field of the input) is never consulted, so a
live BPM edit has no effect on the running playback's position. -/
theorem C7_amended_position_formula (avail : String → Bool) (bpm0 : ℚ)
    (prev : ℚ) (act : ActiveMap) (ins : List TickIn) :
    ∀ (i : ℕ) (out : ℚ × List Track × List Ev),
      (runTicks avail bpm0 prev ins act).1[i]? = some out →
      ∃ inp : TickIn, ins[i]? = some inp ∧
        out.1 = 1000 * inp.elapsed / ms_per_beat bpm0 := by
  induction ins generalizing prev act with
  | nil =>
    intro i out h
    rw [runTicks_nil] at h
    simp at h
  | cons inp rest ih =>
    intro i out h
    by_cases hp : prev < 16
    · rw [runTicks_cons_lt _ _ _ _ _ _ hp] at h
      cases i with
      | zero =>
        simp only [List.getElem?_cons_zero, Option.some.injEq] at h
        refine ⟨inp, by simp, ?_⟩
        rw [← h]
        show posOf bpm0 inp.elapsed = 1000 * inp.elapsed / ms_per_beat bpm0
        rw [posOf]
        ring
      | succ j =>
        simp only [List.getElem?_cons_succ] at h
        obtain ⟨inp', h1, h2⟩ := ih _ _ j out h
        exact ⟨inp', by simpa using h1, h2⟩
    · rw [runTicks_cons_ge _ _ _ _ _ _ hp] at h
      simp at h

/-- Witness for the amended C7 at the concrete run of the counterexample:
the single processed tick has position 2 = 1000·1 / (60000/120). -/
theorem C7_amended_position_formula_witness :
    ∃ inp : TickIn, ([⟨1, [], 240⟩] : List TickIn)[0]? = some inp ∧
      ((2 : ℚ), ([] : List Track), ([] : List Ev)).1 =
        1000 * inp.elapsed / ms_per_beat 120 :=
  C7_amended_position_formula (fun _ => true) 120 0 [] [⟨1, [], 240⟩] 0
    (2, [], []) (by with_unfolding_all rfl)

/-! ### Association-list lemmas for `active_notes` -/

theorem amLookup_append (k : NoteId) (l1 l2 : ActiveMap) :
    amLookup k (l1 ++ l2) =
      match amLookup k l1 with
      | some v => some v
      | none => amLookup k l2 := by
  induction l1 with
  | nil => rfl
  | cons e r ih =>
    by_cases he : e.1 = k
    · rw [List.cons_append, amLookup, if_pos he, amLookup, if_pos he]
    · rw [List.cons_append, amLookup, if_neg he, amLookup, if_neg he, ih]

theorem amLookup_append_singleton_ne (k k' : NoteId) (v : PortInfo)
    (l : ActiveMap) (h : k' ≠ k) : amLookup k (l ++ [(k', v)]) = amLookup k l := by
  rw [amLookup_append]
  cases hl : amLookup k l with
  | some v' => rfl
  | none =>
    show amLookup k [(k', v)] = none
    rw [amLookup, if_neg h, amLookup]

theorem amLookup_append_singleton_self (k : NoteId) (v : PortInfo)
    (l : ActiveMap) (h : amLookup k l = none) :
    amLookup k (l ++ [(k, v)]) = some v := by
  rw [amLookup_append, h]
  show amLookup k [(k, v)] = some v
  rw [amLookup, if_pos rfl]

theorem amLookup_amErase_ne (k k' : NoteId) (l : ActiveMap) (h : k' ≠ k) :
    amLookup k (amErase k' l) = amLookup k l := by
  induction l with
  | nil => rfl
  | cons e r ih =>
    by_cases he : e.1 = k'
    · rw [amErase, if_pos he, amLookup, if_neg (by rw [he]; exact h)]
    · rw [amErase, if_neg he]
      by_cases hek : e.1 = k
      · rw [amLookup, if_pos hek, amLookup, if_pos hek]
      · rw [amLookup, if_neg hek, amLookup, if_neg hek, ih]

theorem amKeys_nil : amKeys [] = [] := rfl

theorem amKeys_cons (e : NoteId × PortInfo) (l : ActiveMap) :
    amKeys (e :: l) = e.1 :: amKeys l := rfl

theorem amKeys_append (l1 l2 : ActiveMap) :
    amKeys (l1 ++ l2) = amKeys l1 ++ amKeys l2 := List.map_append _ _ _

theorem amLookup_eq_none_iff (k : NoteId) (l : ActiveMap) :
    amLookup k l = none ↔ k ∉ amKeys l := by
  induction l with
  | nil => simp [amLookup, amKeys]
  | cons e r ih =>
    rw [amKeys_cons]
    by_cases he : e.1 = k
    · rw [amLookup, if_pos he, he]
      simp
    · rw [amLookup, if_neg he, ih]
      constructor
      · intro h hk
        rcases List.mem_cons.mp hk with hk | hk
        · exact he hk.symm
        · exact h hk
      · intro h hk
        exact h (List.mem_cons_of_mem _ hk)

theorem amKeys_amErase_sublist (k : NoteId) (l : ActiveMap) :
    (amKeys (amErase k l)).Sublist (amKeys l) := by
  induction l with
  | nil => simp [amErase, amKeys]
  | cons e r ih =>
    by_cases he : e.1 = k
    · rw [amErase, if_pos he, amKeys_cons]
      exact (List.sublist_cons_self _ _)
    · rw [amErase, if_neg he, amKeys_cons, amKeys_cons]
      exact ih.cons₂ e.1

theorem amLookup_amErase_self_of_nodup (k : NoteId) (l : ActiveMap)
    (h : (amKeys l).Nodup) : amLookup k (amErase k l) = none := by
  induction l with
  | nil => rfl
  | cons e r ih =>
    rw [amKeys_cons, List.nodup_cons] at h
    by_cases he : e.1 = k
    · rw [amErase, if_pos he, amLookup_eq_none_iff]
      rw [he] at h
      exact h.1
    · rw [amErase, if_neg he, amLookup, if_neg he]
      exact ih h.2

theorem keyCount_nil (k : NoteId) : keyCount k [] = 0 := rfl

theorem keyCount_append (k : NoteId) (l1 l2 : ActiveMap) :
    keyCount k (l1 ++ l2) = keyCount k l1 + keyCount k l2 := by
  rw [keyCount, amKeys_append, List.count_append]
  rfl

theorem keyCount_singleton_self (k : NoteId) (v : PortInfo) :
    keyCount k [(k, v)] = 1 := by
  simp [keyCount, amKeys]

theorem keyCount_singleton_ne (k k' : NoteId) (v : PortInfo) (h : k' ≠ k) :
    keyCount k [(k', v)] = 0 := by
  rw [keyCount, List.count_eq_zero]
  intro hk
  exact h (List.mem_singleton.mp hk).symm

theorem keyCount_eq_zero_of_lookup_none (k : NoteId) (l : ActiveMap)
    (h : amLookup k l = none) : keyCount k l = 0 := by
  rw [keyCount, List.count_eq_zero]
  exact (amLookup_eq_none_iff k l).mp h

theorem keyCount_amErase_self (k : NoteId) (l : ActiveMap)
    (h : amLookup k l ≠ none) :
    keyCount k l = keyCount k (amErase k l) + 1 := by
  induction l with
  | nil => exact absurd rfl h
  | cons e r ih =>
    by_cases he : e.1 = k
    · rw [amErase, if_pos he, keyCount, amKeys_cons, he, List.count_cons_self]
      rfl
    · rw [amErase, if_neg he, keyCount, keyCount, amKeys_cons, amKeys_cons,
        List.count_cons_of_ne (fun hk => he hk.symm),
        List.count_cons_of_ne (fun hk => he hk.symm)]
      rw [amLookup, if_neg he] at h
      exact ih h

theorem keyCount_amErase_ne (k k' : NoteId) (l : ActiveMap) (h : k' ≠ k) :
    keyCount k (amErase k' l) = keyCount k l := by
  induction l with
  | nil => rfl
  | cons e r ih =>
    by_cases he : e.1 = k'
    · rw [amErase, if_pos he, keyCount, keyCount, amKeys_cons, he,
        List.count_cons_of_ne (fun hk => h hk.symm)]
    · rw [amErase, if_neg he, keyCount, keyCount, amKeys_cons, amKeys_cons]
      by_cases hek : e.1 = k
      · rw [hek, List.count_cons_self, List.count_cons_self]
        exact congrArg (· + 1) ih
      · rw [List.count_cons_of_ne (fun hk => hek hk.symm),
          List.count_cons_of_ne (fun hk => hek hk.symm)]
        exact ih

/-! ### Branch lemmas for `noteStep` -/

theorem noteStep_on (trackId channel : ℚ) (portName : String) (t : ℚ)
    (acc : ActiveMap × List Ev) (n : Note)
    (h1 : n.start ≤ t ∧ t < n.start + n.duration)
    (h2 : amLookup (mkNoteId trackId n) acc.1 = none) :
    noteStep trackId channel portName t acc n =
      (acc.1 ++ [(mkNoteId trackId n, (portName, channel, n.pitch))],
       acc.2 ++ [.noteOn (mkNoteId trackId n) portName channel n.pitch n.velocity]) := by
  rw [noteStep, if_pos h1, h2]

theorem noteStep_on_skip (trackId channel : ℚ) (portName : String) (t : ℚ)
    (acc : ActiveMap × List Ev) (n : Note) (v : PortInfo)
    (h1 : n.start ≤ t ∧ t < n.start + n.duration)
    (h2 : amLookup (mkNoteId trackId n) acc.1 = some v) :
    noteStep trackId channel portName t acc n = acc := by
  rw [noteStep, if_pos h1, h2]

theorem noteStep_off (trackId channel : ℚ) (portName : String) (t : ℚ)
    (acc : ActiveMap × List Ev) (n : Note) (v : PortInfo)
    (h1 : ¬ (n.start ≤ t ∧ t < n.start + n.duration))
    (h2 : amLookup (mkNoteId trackId n) acc.1 = some v)
    (h3 : n.start + n.duration ≤ t) :
    noteStep trackId channel portName t acc n =
      (amErase (mkNoteId trackId n) acc.1,
       acc.2 ++ [.noteOff (some (mkNoteId trackId n)) v.1 v.2.1 v.2.2]) := by
  rw [noteStep, if_neg h1, h2]
  dsimp only
  rw [if_pos h3]

theorem noteStep_off_early (trackId channel : ℚ) (portName : String) (t : ℚ)
    (acc : ActiveMap × List Ev) (n : Note) (v : PortInfo)
    (h1 : ¬ (n.start ≤ t ∧ t < n.start + n.duration))
    (h2 : amLookup (mkNoteId trackId n) acc.1 = some v)
    (h3 : ¬ n.start + n.duration ≤ t) :
    noteStep trackId channel portName t acc n = acc := by
  rw [noteStep, if_neg h1, h2]
  dsimp only
  rw [if_neg h3]

theorem noteStep_idle (trackId channel : ℚ) (portName : String) (t : ℚ)
    (acc : ActiveMap × List Ev) (n : Note)
    (h1 : ¬ (n.start ≤ t ∧ t < n.start + n.duration))
    (h2 : amLookup (mkNoteId trackId n) acc.1 = none) :
    noteStep trackId channel portName t acc n = acc := by
  rw [noteStep, if_neg h1, h2]

/-! ### Branch lemmas for `trackStep` -/

theorem trackStep_muted (avail : String → Bool) (t : ℚ) (acc : ActiveMap × List Ev)
    (tr : Track) (h : tr.muted = true) : trackStep avail t acc tr = acc := by
  rw [trackStep, if_pos h]

theorem trackStep_noport (avail : String → Bool) (t : ℚ) (acc : ActiveMap × List Ev)
    (tr : Track) (hm : tr.muted = false) (hp : tr.midi_port = none) :
    trackStep avail t acc tr = acc := by
  rw [trackStep, if_neg (by simp [hm]), hp]

theorem trackStep_unavail (avail : String → Bool) (t : ℚ) (acc : ActiveMap × List Ev)
    (tr : Track) (pn : String) (hm : tr.muted = false) (hp : tr.midi_port = some pn)
    (ha : avail pn = false) : trackStep avail t acc tr = acc := by
  rw [trackStep, if_neg (by simp [hm]), hp]
  dsimp only
  rw [ha]
  rfl

theorem trackStep_run (avail : String → Bool) (t : ℚ) (acc : ActiveMap × List Ev)
    (tr : Track) (pn : String) (hm : tr.muted = false) (hp : tr.midi_port = some pn)
    (ha : avail pn = true) :
    trackStep avail t acc tr =
      tr.notes.foldl (noteStep tr.id tr.midi_channel pn t) acc := by
  rw [trackStep, if_neg (by simp [hm]), hp]
  dsimp only
  rw [ha]
  rfl

/-! ### The `active_notes` keys stay distinct -/

theorem noteStep_keys_nodup (trackId channel : ℚ) (portName : String) (t : ℚ)
    (acc : ActiveMap × List Ev) (n : Note) (h : (amKeys acc.1).Nodup) :
    (amKeys (noteStep trackId channel portName t acc n).1).Nodup := by
  by_cases h1 : n.start ≤ t ∧ t < n.start + n.duration
  · cases h2 : amLookup (mkNoteId trackId n) acc.1 with
    | none =>
      rw [noteStep_on _ _ _ _ _ _ h1 h2]
      rw [amKeys_append, List.nodup_append]
      refine ⟨h, List.nodup_singleton _, ?_⟩
      intro a ha hmem
      rcases List.mem_singleton.mp hmem with rfl
      exact (amLookup_eq_none_iff _ _).mp h2 ha
    | some v =>
      rw [noteStep_on_skip _ _ _ _ _ _ v h1 h2]
      exact h
  · cases h2 : amLookup (mkNoteId trackId n) acc.1 with
    | none =>
      rw [noteStep_idle _ _ _ _ _ _ h1 h2]
      exact h
    | some v =>
      by_cases h3 : n.start + n.duration ≤ t
      · rw [noteStep_off _ _ _ _ _ _ v h1 h2 h3]
        exact h.sublist (amKeys_amErase_sublist _ _)
      · rw [noteStep_off_early _ _ _ _ _ _ v h1 h2 h3]
        exact h

theorem foldl_noteStep_keys_nodup (trackId channel : ℚ) (portName : String)
    (t : ℚ) : ∀ (notes : List Note) (acc : ActiveMap × List Ev),
    (amKeys acc.1).Nodup →
    (amKeys (notes.foldl (noteStep trackId channel portName t) acc).1).Nodup := by
  intro notes
  induction notes with
  | nil => intro acc h; exact h
  | cons n rest ih =>
    intro acc h
    rw [List.foldl_cons]
    exact ih _ (noteStep_keys_nodup _ _ _ _ _ _ h)

theorem trackStep_keys_nodup (avail : String → Bool) (t : ℚ)
    (acc : ActiveMap × List Ev) (tr : Track) (h : (amKeys acc.1).Nodup) :
    (amKeys (trackStep avail t acc tr).1).Nodup := by
  cases hm : tr.muted with
  | true => rw [trackStep_muted _ _ _ _ hm]; exact h
  | false =>
    cases hp : tr.midi_port with
    | none => rw [trackStep_noport _ _ _ _ hm hp]; exact h
    | some pn =>
      cases ha : avail pn with
      | false => rw [trackStep_unavail _ _ _ _ _ hm hp ha]; exact h
      | true =>
        rw [trackStep_run _ _ _ _ _ hm hp ha]
        exact foldl_noteStep_keys_nodup _ _ _ _ _ _ h

theorem foldl_trackStep_keys_nodup (avail : String → Bool) (t : ℚ) :
    ∀ (T : List Track) (acc : ActiveMap × List Ev), (amKeys acc.1).Nodup →
    (amKeys (T.foldl (trackStep avail t) acc).1).Nodup := by
  intro T
  induction T with
  | nil => intro acc h; exact h
  | cons tr rest ih =>
    intro acc h
    rw [List.foldl_cons]
    exact ih _ (trackStep_keys_nodup _ _ _ _ h)

theorem tickStep_keys_nodup (avail : String → Bool) (t : ℚ) (tracks : List Track)
    (act : ActiveMap) (h : (amKeys act).Nodup) :
    (amKeys (tickStep avail t tracks act).1).Nodup :=
  foldl_trackStep_keys_nodup avail t tracks (act, []) h

theorem runTicks_keys_nodup (avail : String → Bool) (bpm0 : ℚ) :
    ∀ (ins : List TickIn) (prev : ℚ) (act : ActiveMap), (amKeys act).Nodup →
    (amKeys (runTicks avail bpm0 prev ins act).2).Nodup := by
  intro ins
  induction ins with
  | nil => intro prev act h; rw [runTicks_nil]; exact h
  | cons inp rest ih =>
    intro prev act h
    by_cases hp : prev < 16
    · rw [runTicks_cons_lt _ _ _ _ _ _ hp]
      exact ih _ _ (tickStep_keys_nodup _ _ _ _ h)
    · rw [runTicks_cons_ge _ _ _ _ _ _ hp]
      exact h

/-! ### Event counting -/

theorem countOn_nil (nid : NoteId) : countOn nid [] = 0 := rfl

theorem countOff_nil (nid : NoteId) : countOff nid [] = 0 := rfl

theorem countOn_append (nid : NoteId) (l1 l2 : List Ev) :
    countOn nid (l1 ++ l2) = countOn nid l1 + countOn nid l2 :=
  List.countP_append _ _ _

theorem countOff_append (nid : NoteId) (l1 l2 : List Ev) :
    countOff nid (l1 ++ l2) = countOff nid l1 + countOff nid l2 :=
  List.countP_append _ _ _

theorem countOn_on_single (nid nid' : NoteId) (pn : String) (ch p vel : ℚ) :
    countOn nid [Ev.noteOn nid' pn ch p vel] = if nid' = nid then 1 else 0 := by
  by_cases h : nid' = nid <;>
    simp [countOn, List.countP_cons, Ev.onTag, h]

theorem countOn_off_single (nid : NoteId) (tag : Option NoteId) (pn : String)
    (ch p : ℚ) : countOn nid [Ev.noteOff tag pn ch p] = 0 := by
  simp [countOn, List.countP_cons, Ev.onTag]

theorem countOff_on_single (nid nid' : NoteId) (pn : String) (ch p vel : ℚ) :
    countOff nid [Ev.noteOn nid' pn ch p vel] = 0 := by
  simp [countOff, List.countP_cons, Ev.offTag]

theorem countOff_off_single (nid : NoteId) (tag : Option NoteId) (pn : String)
    (ch p : ℚ) :
    countOff nid [Ev.noteOff tag pn ch p] = if tag = some nid then 1 else 0 := by
  by_cases h : tag = some nid <;>
    simp [countOff, List.countP_cons, Ev.offTag, h]

theorem keyCount_singleton (k k' : NoteId) (v : PortInfo) :
    keyCount k [(k', v)] = if k' = k then 1 else 0 := by
  by_cases h : k' = k
  · subst h; rw [if_pos rfl]; exact keyCount_singleton_self _ _
  · rw [if_neg h]; exact keyCount_singleton_ne _ _ _ h

/-- The conservation relation between two `(active_notes, events)` states:
the on/off count difference for an identity equals the change in its
presence in `active_notes`.  Stated additively to stay in `ℕ`. -/
def Bal (nid : NoteId) (x y : ActiveMap × List Ev) : Prop :=
  countOn nid y.2 + countOff nid x.2 + keyCount nid x.1 =
    countOff nid y.2 + countOn nid x.2 + keyCount nid y.1

theorem Bal_refl (nid : NoteId) (x : ActiveMap × List Ev) : Bal nid x x := by
  unfold Bal; omega

theorem Bal_trans (nid : NoteId) (x y z : ActiveMap × List Ev)
    (h1 : Bal nid x y) (h2 : Bal nid y z) : Bal nid x z := by
  unfold Bal at *; omega

theorem noteStep_bal (nid : NoteId) (trackId channel : ℚ) (portName : String)
    (t : ℚ) (acc : ActiveMap × List Ev) (n : Note) :
    Bal nid acc (noteStep trackId channel portName t acc n) := by
  by_cases h1 : n.start ≤ t ∧ t < n.start + n.duration
  · cases h2 : amLookup (mkNoteId trackId n) acc.1 with
    | none =>
      rw [noteStep_on _ _ _ _ _ _ h1 h2]
      unfold Bal
      dsimp only
      rw [countOn_append, countOff_append, keyCount_append, countOn_on_single,
        countOff_on_single, keyCount_singleton]
      by_cases hk : mkNoteId trackId n = nid <;> simp [hk] <;> omega
    | some v =>
      rw [noteStep_on_skip _ _ _ _ _ _ v h1 h2]
      exact Bal_refl _ _
  · cases h2 : amLookup (mkNoteId trackId n) acc.1 with
    | none =>
      rw [noteStep_idle _ _ _ _ _ _ h1 h2]
      exact Bal_refl _ _
    | some v =>
      by_cases h3 : n.start + n.duration ≤ t
      · rw [noteStep_off _ _ _ _ _ _ v h1 h2 h3]
        unfold Bal
        dsimp only
        rw [countOn_append, countOff_append, countOn_off_single,
          countOff_off_single]
        by_cases hk : mkNoteId trackId n = nid
        · rw [if_pos (by rw [hk])]
          have := keyCount_amErase_self nid acc.1 (by rw [← hk, h2]; simp)
          rw [hk] at *
          omega
        · rw [if_neg (by simpa using hk), keyCount_amErase_ne _ _ _ hk]
          omega
      · rw [noteStep_off_early _ _ _ _ _ _ v h1 h2 h3]
        exact Bal_refl _ _

theorem foldl_noteStep_bal (nid : NoteId) (trackId channel : ℚ)
    (portName : String) (t : ℚ) :
    ∀ (notes : List Note) (acc : ActiveMap × List Ev),
      Bal nid acc (notes.foldl (noteStep trackId channel portName t) acc) := by
  intro notes
  induction notes with
  | nil => intro acc; exact Bal_refl _ _
  | cons n rest ih =>
    intro acc
    rw [List.foldl_cons]
    exact Bal_trans _ _ _ _ (noteStep_bal _ _ _ _ _ _ _) (ih _)

theorem trackStep_bal (nid : NoteId) (avail : String → Bool) (t : ℚ)
    (acc : ActiveMap × List Ev) (tr : Track) :
    Bal nid acc (trackStep avail t acc tr) := by
  cases hm : tr.muted with
  | true => rw [trackStep_muted _ _ _ _ hm]; exact Bal_refl _ _
  | false =>
    cases hp : tr.midi_port with
    | none => rw [trackStep_noport _ _ _ _ hm hp]; exact Bal_refl _ _
    | some pn =>
      cases ha : avail pn with
      | false => rw [trackStep_unavail _ _ _ _ _ hm hp ha]; exact Bal_refl _ _
      | true =>
        rw [trackStep_run _ _ _ _ _ hm hp ha]
        exact foldl_noteStep_bal _ _ _ _ _ _ _

theorem foldl_trackStep_bal (nid : NoteId) (avail : String → Bool) (t : ℚ) :
    ∀ (T : List Track) (acc : ActiveMap × List Ev),
      Bal nid acc (T.foldl (trackStep avail t) acc) := by
  intro T
  induction T with
  | nil => intro acc; exact Bal_refl _ _
  | cons tr rest ih =>
    intro acc
    rw [List.foldl_cons]
    exact Bal_trans _ _ _ _ (trackStep_bal _ _ _ _ _) (ih _)

theorem tickStep_balance (nid : NoteId) (avail : String → Bool) (t : ℚ)
    (T : List Track) (act : ActiveMap) :
    countOn nid (tickStep avail t T act).2 + keyCount nid act =
      countOff nid (tickStep avail t T act).2 +
        keyCount nid (tickStep avail t T act).1 := by
  have h := foldl_trackStep_bal nid avail t T (act, [])
  unfold Bal at h
  dsimp only at h
  rw [countOn_nil, countOff_nil] at h
  unfold tickStep
  omega

theorem runTicks_balance (nid : NoteId) (avail : String → Bool) (bpm0 : ℚ) :
    ∀ (ins : List TickIn) (prev : ℚ) (act : ActiveMap),
    countOn nid (((runTicks avail bpm0 prev ins act).1.map
        (fun o => o.2.2)).flatten) + keyCount nid act =
      countOff nid (((runTicks avail bpm0 prev ins act).1.map
        (fun o => o.2.2)).flatten) +
        keyCount nid (runTicks avail bpm0 prev ins act).2 := by
  intro ins
  induction ins with
  | nil =>
    intro prev act
    rw [runTicks_nil]
    simp [countOn_nil, countOff_nil]
  | cons inp rest ih =>
    intro prev act
    by_cases hp : prev < 16
    · rw [runTicks_cons_lt _ _ _ _ _ _ hp]
      rw [List.map_cons]
      dsimp only
      rw [List.flatten_cons, countOn_append, countOff_append]
      have h1 := tickStep_balance nid avail (posOf bpm0 inp.elapsed) inp.tracks act
      have h2 := ih (posOf bpm0 inp.elapsed)
        (tickStep avail (posOf bpm0 inp.elapsed) inp.tracks act).1
      omega
    · rw [runTicks_cons_ge _ _ _ _ _ _ hp]
      simp [countOn_nil, countOff_nil]

theorem countOn_cons (nid : NoteId) (e : Ev) (evs : List Ev) :
    countOn nid (e :: evs) =
      countOn nid evs + (if e.onTag = some nid then 1 else 0) := by
  unfold countOn
  rw [List.countP_cons]
  by_cases h : e.onTag = some nid <;> simp [h]

theorem countOff_cons (nid : NoteId) (e : Ev) (evs : List Ev) :
    countOff nid (e :: evs) =
      countOff nid evs + (if e.offTag = some nid then 1 else 0) := by
  unfold countOff
  rw [List.countP_cons]
  by_cases h : e.offTag = some nid <;> simp [h]

theorem count_eq_one_of_nodup_mem (nid : NoteId) :
    ∀ l : List NoteId, l.Nodup → nid ∈ l → l.count nid = 1 := by
  intro l
  induction l with
  | nil => intro _ h; cases h
  | cons a r ih =>
    intro hnd hm
    rw [List.nodup_cons] at hnd
    rcases List.mem_cons.mp hm with rfl | hm2
    · rw [List.count_cons_self, List.count_eq_zero.mpr hnd.1]
    · have hne : nid ≠ a := by
        rintro rfl
        exact hnd.1 hm2
      rw [List.count_cons_of_ne hne, ih hnd.2 hm2]

theorem countOff_flush (nid : NoteId) :
    ∀ act : ActiveMap, countOff nid (flushEvents act) = keyCount nid act := by
  intro act
  induction act with
  | nil => rfl
  | cons e r ih =>
    show countOff nid (Ev.noteOff (some e.1) e.2.1 e.2.2.1 e.2.2.2 :: flushEvents r)
        = keyCount nid (e :: r)
    rw [countOff_cons, ih]
    simp only [Ev.offTag, Option.some.injEq]
    by_cases h : e.1 = nid
    · rw [if_pos h, keyCount, keyCount, amKeys_cons, h, List.count_cons_self]
    · rw [if_neg h, keyCount, keyCount, amKeys_cons,
        List.count_cons_of_ne (fun hk => h hk.symm)]
      omega

theorem countOn_flush (nid : NoteId) :
    ∀ act : ActiveMap, countOn nid (flushEvents act) = 0 := by
  intro act
  induction act with
  | nil => rfl
  | cons e r ih =>
    show countOn nid (Ev.noteOff (some e.1) e.2.1 e.2.2.1 e.2.2.2 :: flushEvents r) = 0
    rw [countOn_cons, ih]
    simp [Ev.onTag]

/-! ### Which track an event comes from -/

theorem noteStep_events_origin (trackId channel : ℚ) (portName : String)
    (t : ℚ) (acc : ActiveMap × List Ev) (n : Note) :
    ∀ e ∈ (noteStep trackId channel portName t acc n).2,
      e ∈ acc.2 ∨ e.tagTrack = some trackId := by
  intro e he
  by_cases h1 : n.start ≤ t ∧ t < n.start + n.duration
  · cases h2 : amLookup (mkNoteId trackId n) acc.1 with
    | none =>
      rw [noteStep_on _ _ _ _ _ _ h1 h2] at he
      rcases List.mem_append.mp he with he | he
      · exact Or.inl he
      · rcases List.mem_singleton.mp he with rfl
        exact Or.inr rfl
    | some v =>
      rw [noteStep_on_skip _ _ _ _ _ _ v h1 h2] at he
      exact Or.inl he
  · cases h2 : amLookup (mkNoteId trackId n) acc.1 with
    | none =>
      rw [noteStep_idle _ _ _ _ _ _ h1 h2] at he
      exact Or.inl he
    | some v =>
      by_cases h3 : n.start + n.duration ≤ t
      · rw [noteStep_off _ _ _ _ _ _ v h1 h2 h3] at he
        rcases List.mem_append.mp he with he | he
        · exact Or.inl he
        · rcases List.mem_singleton.mp he with rfl
          exact Or.inr rfl
      · rw [noteStep_off_early _ _ _ _ _ _ v h1 h2 h3] at he
        exact Or.inl he

theorem foldl_noteStep_events_origin (trackId channel : ℚ) (portName : String)
    (t : ℚ) : ∀ (notes : List Note) (acc : ActiveMap × List Ev),
    ∀ e ∈ (notes.foldl (noteStep trackId channel portName t) acc).2,
      e ∈ acc.2 ∨ e.tagTrack = some trackId := by
  intro notes
  induction notes with
  | nil => intro acc e he; exact Or.inl he
  | cons n rest ih =>
    intro acc e he
    rw [List.foldl_cons] at he
    rcases ih _ e he with h | h
    · exact noteStep_events_origin _ _ _ _ _ _ e h
    · exact Or.inr h

theorem trackStep_events_origin (avail : String → Bool) (t : ℚ)
    (acc : ActiveMap × List Ev) (tr : Track) :
    ∀ e ∈ (trackStep avail t acc tr).2,
      e ∈ acc.2 ∨ (tr.muted = false ∧ e.tagTrack = some tr.id) := by
  intro e he
  cases hm : tr.muted with
  | true => rw [trackStep_muted _ _ _ _ hm] at he; exact Or.inl he
  | false =>
    cases hp : tr.midi_port with
    | none => rw [trackStep_noport _ _ _ _ hm hp] at he; exact Or.inl he
    | some pn =>
      cases ha : avail pn with
      | false => rw [trackStep_unavail _ _ _ _ _ hm hp ha] at he; exact Or.inl he
      | true =>
        rw [trackStep_run _ _ _ _ _ hm hp ha] at he
        rcases foldl_noteStep_events_origin _ _ _ _ _ _ e he with h | h
        · exact Or.inl h
        · exact Or.inr ⟨rfl, h⟩

theorem foldl_trackStep_events_origin (avail : String → Bool) (t : ℚ) :
    ∀ (T : List Track) (acc : ActiveMap × List Ev),
    ∀ e ∈ (T.foldl (trackStep avail t) acc).2,
      e ∈ acc.2 ∨ ∃ tr ∈ T, tr.muted = false ∧ e.tagTrack = some tr.id := by
  intro T
  induction T with
  | nil => intro acc e he; exact Or.inl he
  | cons tr rest ih =>
    intro acc e he
    rw [List.foldl_cons] at he
    rcases ih _ e he with h | h
    · rcases trackStep_events_origin _ _ _ _ e h with h | h
      · exact Or.inl h
      · exact Or.inr ⟨tr, List.mem_cons_self _ _, h⟩
    · obtain ⟨tr', htr', hh⟩ := h
      exact Or.inr ⟨tr', List.mem_cons_of_mem _ htr', hh⟩

theorem tickStep_events_origin (avail : String → Bool) (t : ℚ)
    (T : List Track) (act : ActiveMap) :
    ∀ e ∈ (tickStep avail t T act).2,
      ∃ tr ∈ T, tr.muted = false ∧ e.tagTrack = some tr.id := by
  intro e he
  rcases foldl_trackStep_events_origin avail t T (act, []) e he with h | h
  · cases h
  · exact h

/-- Every per-tick output of the loop is the tick body run on the tracks
observed at that tick (which are the tracks of some input). -/
theorem runTicks_out_mem (avail : String → Bool) (bpm0 : ℚ) :
    ∀ (ins : List TickIn) (prev : ℚ) (act : ActiveMap),
    ∀ out ∈ (runTicks avail bpm0 prev ins act).1,
      ∃ act' : ActiveMap, out.2.2 = (tickStep avail out.1 out.2.1 act').2 ∧
        ∃ inp ∈ ins, out.2.1 = inp.tracks := by
  intro ins
  induction ins with
  | nil =>
    intro prev act out hout
    rw [runTicks_nil] at hout
    cases hout
  | cons inp rest ih =>
    intro prev act out hout
    by_cases hp : prev < 16
    · rw [runTicks_cons_lt _ _ _ _ _ _ hp] at hout
      rcases List.mem_cons.mp hout with rfl | hout
      · exact ⟨act, rfl, inp, List.mem_cons_self _ _, rfl⟩
      · obtain ⟨act', h1, inp', h2, h3⟩ := ih _ _ out hout
        exact ⟨act', h1, inp', List.mem_cons_of_mem _ h2, h3⟩
    · rw [runTicks_cons_ge _ _ _ _ _ _ hp] at hout
      cases hout

/-! ### Claim C8 -/

/-- Claim C8: while a track is muted the tick loop emits no event at all
for that track — in particular no note-on for any of its notes, and also
no immediate note-off (mute never instantly silences); and over a whole
run (all processed ticks plus the cleanup flush at loop exit, which also
serves the stop path) every identity receives exactly as many note-offs as
note-ons, so a note already sounding when its track is muted still gets
its one note-off — from a later tick once `position ≥ start + duration`
(if unmuted again) or from the exit/stop flush. -/
theorem C8_mute_semantics (avail : String → Bool) (bpm0 : ℚ) (ins : List TickIn)
    (hnodup : ∀ inp ∈ ins, (inp.tracks.map Track.id).Nodup) :
    (∀ out ∈ (runTicks avail bpm0 0 ins []).1, ∀ tr ∈ out.2.1, tr.muted = true →
       ∀ e ∈ out.2.2, e.tagTrack ≠ some tr.id) ∧
    (∀ nid : NoteId,
       countOn nid ((((runTicks avail bpm0 0 ins []).1.map
           (fun o => o.2.2)).flatten) ++ flushEvents (runTicks avail bpm0 0 ins []).2) =
       countOff nid ((((runTicks avail bpm0 0 ins []).1.map
           (fun o => o.2.2)).flatten) ++ flushEvents (runTicks avail bpm0 0 ins []).2)) := by
  constructor
  · intro out hout tr htr hmut e he htag
    obtain ⟨act', hev, inp, hinp, htracks⟩ := runTicks_out_mem avail bpm0 ins 0 [] out hout
    rw [hev] at he
    obtain ⟨tr', htr', hmut', htag'⟩ := tickStep_events_origin _ _ _ _ e he
    have hid : tr'.id = tr.id := Option.some_injective _ (htag'.symm.trans htag)
    have heq : tr' = tr := by
      rw [htracks] at htr htr'
      exact List.inj_on_of_nodup_map (hnodup inp hinp) htr' htr hid
    rw [heq, hmut] at hmut'
    cases hmut'
  · intro nid
    rw [countOn_append, countOff_append, countOn_flush, countOff_flush]
    have hb := runTicks_balance nid avail bpm0 ins 0 []
    rw [keyCount_nil] at hb
    omega

/-- Witness scenario for C8: one muted track with a note whose span covers
the tick; the tick emits nothing for it and the run balances on/off counts. -/
def trackC8 : Track :=
  { id := 0, name := "Track 1", notes := [⟨60, 0, 10, 100⟩], color := "#3b82f6",
    muted := true, midi_port := some "p", midi_channel := 0, instrument := 0 }

theorem C8_mute_semantics_witness :
    (∀ out ∈ (runTicks (fun _ => true) 120 0 [⟨1/2, [trackC8], 120⟩] []).1,
       ∀ tr ∈ out.2.1, tr.muted = true → ∀ e ∈ out.2.2, e.tagTrack ≠ some tr.id) ∧
    (∀ nid : NoteId,
       countOn nid ((((runTicks (fun _ => true) 120 0 [⟨1/2, [trackC8], 120⟩] []).1.map
           (fun o => o.2.2)).flatten) ++
           flushEvents (runTicks (fun _ => true) 120 0 [⟨1/2, [trackC8], 120⟩] []).2) =
       countOff nid ((((runTicks (fun _ => true) 120 0 [⟨1/2, [trackC8], 120⟩] []).1.map
           (fun o => o.2.2)).flatten) ++
           flushEvents (runTicks (fun _ => true) 120 0 [⟨1/2, [trackC8], 120⟩] []).2)) :=
  C8_mute_semantics (fun _ => true) 120 [⟨1/2, [trackC8], 120⟩]
    (by intro inp hinp; rcases List.mem_singleton.mp hinp with rfl; with_unfolding_all decide)

/-! ### Claim C2 -/

/-- Concrete scenario for the stop path: one track on port `"p"`, channel
0, with a long note that is sounding when STOP is pressed. -/
def trackC2 : Track :=
  { id := 0, name := "Track 1", notes := [⟨60, 0, 10, 100⟩], color := "#3b82f6",
    muted := false, midi_port := some "p", midi_channel := 0, instrument := 0 }

/-- Boolean test: is this event a note-off for the given port, channel and
pitch (tagged or not)? -/
def isOffFor (pn : String) (ch ptch : ℚ) : Ev → Bool
  | .noteOff _ pn' ch' ptch' => decide (pn' = pn ∧ ch' = ch ∧ ptch' = ptch)
  | .noteOn _ _ _ _ _ => false

/-- Claim C2 counterexample: with one note sounding, pressing STOP makes
the sounding note's `(port, channel, pitch)` receive *two* note-offs — one
from `stop_all_notes`'s blanket sweep over all 128 pitches and one from
the playback thread's cleanup flush — not exactly one deduplicated
note-off as claimed. -/
theorem C2_stop_dedup_cx :
    ((toggle_playback_stop (fun _ => true) 120 [⟨1/2, [trackC2], 120⟩]
        [trackC2]).events.countP (isOffFor "p" 0 60)) = 2 ∧ (2 : ℕ) ≠ 1 := by
  with_unfolding_all decide

/-- Claim C2 (amended): when STOP is pressed while playing, `position` is
reset to 0; the thread's cleanup flush sends exactly one note-off per
identity still in the sounding set, and all of those note-offs are among
the emitted events; in addition `stop_all_notes` sends a blanket note-off
for every pitch 0..127 on each ported track's current channel, so a
sounding note is *not* globally deduplicated (it also receives the blanket
off for its pitch). -/
theorem C2_amended_stop_behavior (avail : String → Bool) (bpm0 : ℚ)
    (ins : List TickIn) (tracksAtStop : List Track) :
    (toggle_playback_stop avail bpm0 ins tracksAtStop).position = 0 ∧
    (∀ nid ∈ amKeys (runTicks avail bpm0 0 ins []).2,
       countOff nid (flushEvents (runTicks avail bpm0 0 ins []).2) = 1) ∧
    (∀ e ∈ flushEvents (runTicks avail bpm0 0 ins []).2,
       e ∈ (toggle_playback_stop avail bpm0 ins tracksAtStop).events) ∧
    (∀ tr ∈ tracksAtStop, ∀ pn, tr.midi_port = some pn → avail pn = true →
       ∀ k : ℕ, k < 128 →
         Ev.noteOff none pn tr.midi_channel (k : ℚ) ∈
           (toggle_playback_stop avail bpm0 ins tracksAtStop).events) := by
  refine ⟨rfl, ?_, ?_, ?_⟩
  · intro nid hmem
    rw [countOff_flush, keyCount]
    have hnd := runTicks_keys_nodup avail bpm0 ins 0 [] (by simp [amKeys])
    exact count_eq_one_of_nodup_mem nid _ hnd hmem
  · intro e he
    show e ∈ _ ++ _ ++ _
    exact List.mem_append.mpr (Or.inr he)
  · intro tr htr pn hp ha k hk
    show _ ∈ _ ++ _ ++ _
    refine List.mem_append.mpr (Or.inl (List.mem_append.mpr (Or.inr ?_)))
    rw [stop_all_notes]
    refine List.mem_flatten.mpr ⟨(List.range 128).map
      (fun j : ℕ => Ev.noteOff none pn tr.midi_channel (j : ℚ)), ?_, ?_⟩
    · refine List.mem_map.mpr ⟨tr, htr, ?_⟩
      rw [hp]
      dsimp only
      rw [ha, if_pos rfl]
    · exact List.mem_map.mpr ⟨k, List.mem_range.mpr hk, rfl⟩

/-- Witness for the amended C2 at the concrete stop scenario. -/
theorem C2_amended_stop_behavior_witness :
    (toggle_playback_stop (fun _ => true) 120 [⟨1/2, [trackC2], 120⟩]
        [trackC2]).position = 0 ∧
    (∀ nid ∈ amKeys (runTicks (fun _ => true) 120 0 [⟨1/2, [trackC2], 120⟩] []).2,
       countOff nid (flushEvents
         (runTicks (fun _ => true) 120 0 [⟨1/2, [trackC2], 120⟩] []).2) = 1) ∧
    (∀ e ∈ flushEvents (runTicks (fun _ => true) 120 0 [⟨1/2, [trackC2], 120⟩] []).2,
       e ∈ (toggle_playback_stop (fun _ => true) 120 [⟨1/2, [trackC2], 120⟩]
         [trackC2]).events) ∧
    (∀ tr ∈ [trackC2], ∀ pn, tr.midi_port = some pn → (fun _ => true) pn = true →
       ∀ k : ℕ, k < 128 →
         Ev.noteOff none pn tr.midi_channel (k : ℚ) ∈
           (toggle_playback_stop (fun _ => true) 120 [⟨1/2, [trackC2], 120⟩]
             [trackC2]).events) :=
  C2_amended_stop_behavior (fun _ => true) 120 [⟨1/2, [trackC2], 120⟩] [trackC2]

/-! ### Claim C1: localizing the loop to a single note

For a note whose identity is unique in the observed track list, the loop's
effect on that identity is exactly a two-state automaton (`autStep`): not
sounding / sounding with a captured `(port, channel, pitch)`. -/

/-- The per-tick behaviour of `playback_loop` restricted to one note of an
unmuted, ported track: the same branch structure as `noteStep`, carrying
only the note's own `active_notes` entry. -/
def autStep (nid : NoteId) (pn : String) (ch : ℚ) (n : Note)
    (s : Option PortInfo) (t : ℚ) : Option PortInfo × List Ev :=
  if n.start ≤ t ∧ t < n.start + n.duration then
    match s with
    | none => (some (pn, ch, n.pitch), [.noteOn nid pn ch n.pitch n.velocity])
    | some v => (some v, [])
  else
    match s with
    | some v =>
      if n.start + n.duration ≤ t then
        (none, [.noteOff (some nid) v.1 v.2.1 v.2.2])
      else (some v, [])
    | none => (none, [])

/-- The single-note automaton over a list of tick positions; returns the
final state and one (possibly empty) event batch per tick. -/
def note1Run (nid : NoteId) (pn : String) (ch : ℚ) (n : Note) :
    Option PortInfo → List ℚ → Option PortInfo × List (List Ev)
  | s, [] => (s, [])
  | s, t :: ts =>
    ((note1Run nid pn ch n (autStep nid pn ch n s t).1 ts).1,
     (autStep nid pn ch n s t).2 ::
       (note1Run nid pn ch n (autStep nid pn ch n s t).1 ts).2)

theorem evFor_nil (nid : NoteId) : evFor nid [] = [] := rfl

theorem evFor_append (nid : NoteId) (l1 l2 : List Ev) :
    evFor nid (l1 ++ l2) = evFor nid l1 ++ evFor nid l2 :=
  List.filter_append _ _

theorem evFor_on_single_ne (nid nid' : NoteId) (pn : String) (ch p vel : ℚ)
    (h : nid' ≠ nid) : evFor nid [Ev.noteOn nid' pn ch p vel] = [] := by
  simp [evFor, Ev.onTag, Ev.offTag, h]

theorem evFor_off_single_ne (nid nid' : NoteId) (pn : String) (ch p : ℚ)
    (h : nid' ≠ nid) : evFor nid [Ev.noteOff (some nid') pn ch p] = [] := by
  simp [evFor, Ev.onTag, Ev.offTag, h]

theorem evFor_autStep (nid : NoteId) (pn : String) (ch : ℚ) (n : Note)
    (s : Option PortInfo) (t : ℚ) :
    evFor nid (autStep nid pn ch n s t).2 = (autStep nid pn ch n s t).2 := by
  rw [autStep.eq_def]
  by_cases h1 : n.start ≤ t ∧ t < n.start + n.duration
  · rw [if_pos h1]
    cases s with
    | none => simp [evFor, Ev.onTag]
    | some v => rfl
  · rw [if_neg h1]
    cases s with
    | none => rfl
    | some v =>
      dsimp only
      by_cases h3 : n.start + n.duration ≤ t
      · rw [if_pos h3]
        simp [evFor, Ev.offTag]
      · rw [if_neg h3]
        rfl

/-- A note with a different identity does not touch our identity's entry
or emit events tagged with it. -/
theorem noteStep_other (nid : NoteId) (trackId channel : ℚ) (portName : String)
    (t : ℚ) (acc : ActiveMap × List Ev) (n : Note)
    (hne : mkNoteId trackId n ≠ nid) :
    amLookup nid (noteStep trackId channel portName t acc n).1 =
        amLookup nid acc.1 ∧
    evFor nid (noteStep trackId channel portName t acc n).2 =
        evFor nid acc.2 := by
  by_cases h1 : n.start ≤ t ∧ t < n.start + n.duration
  · cases h2 : amLookup (mkNoteId trackId n) acc.1 with
    | none =>
      rw [noteStep_on _ _ _ _ _ _ h1 h2]
      exact ⟨amLookup_append_singleton_ne _ _ _ _ hne,
        by rw [evFor_append, evFor_on_single_ne _ _ _ _ _ _ hne, List.append_nil]⟩
    | some v => rw [noteStep_on_skip _ _ _ _ _ _ v h1 h2]; exact ⟨rfl, rfl⟩
  · cases h2 : amLookup (mkNoteId trackId n) acc.1 with
    | none => rw [noteStep_idle _ _ _ _ _ _ h1 h2]; exact ⟨rfl, rfl⟩
    | some v =>
      by_cases h3 : n.start + n.duration ≤ t
      · rw [noteStep_off _ _ _ _ _ _ v h1 h2 h3]
        exact ⟨amLookup_amErase_ne _ _ _ hne,
          by rw [evFor_append, evFor_off_single_ne _ _ _ _ _ hne, List.append_nil]⟩
      · rw [noteStep_off_early _ _ _ _ _ _ v h1 h2 h3]; exact ⟨rfl, rfl⟩

/-- Our note's step behaves exactly like the single-note automaton. -/
theorem noteStep_self (nid : NoteId) (trackId channel : ℚ) (portName : String)
    (t : ℚ) (acc : ActiveMap × List Ev) (n : Note)
    (hid : mkNoteId trackId n = nid) (hnd : (amKeys acc.1).Nodup) :
    amLookup nid (noteStep trackId channel portName t acc n).1 =
        (autStep nid portName channel n (amLookup nid acc.1) t).1 ∧
    (noteStep trackId channel portName t acc n).2 =
        acc.2 ++ (autStep nid portName channel n (amLookup nid acc.1) t).2 := by
  subst hid
  rw [autStep.eq_def]
  by_cases h1 : n.start ≤ t ∧ t < n.start + n.duration
  · rw [if_pos h1]
    cases h2 : amLookup (mkNoteId trackId n) acc.1 with
    | none =>
      rw [noteStep_on _ _ _ _ _ _ h1 h2]
      exact ⟨amLookup_append_singleton_self _ _ _ h2, rfl⟩
    | some v =>
      rw [noteStep_on_skip _ _ _ _ _ _ v h1 h2]
      exact ⟨h2, by rw [List.append_nil]⟩
  · rw [if_neg h1]
    cases h2 : amLookup (mkNoteId trackId n) acc.1 with
    | none =>
      rw [noteStep_idle _ _ _ _ _ _ h1 h2]
      exact ⟨h2, by rw [List.append_nil]⟩
    | some v =>
      by_cases h3 : n.start + n.duration ≤ t
      · rw [noteStep_off _ _ _ _ _ _ v h1 h2 h3]
        dsimp only
        rw [if_pos h3]
        exact ⟨amLookup_amErase_self_of_nodup _ _ hnd, rfl⟩
      · rw [noteStep_off_early _ _ _ _ _ _ v h1 h2 h3]
        dsimp only
        rw [if_neg h3]
        exact ⟨h2, by rw [List.append_nil]⟩

theorem foldl_noteStep_other (nid : NoteId) (trackId channel : ℚ)
    (portName : String) (t : ℚ) :
    ∀ (notes : List Note) (acc : ActiveMap × List Ev),
      (∀ m ∈ notes, mkNoteId trackId m ≠ nid) →
      amLookup nid ((notes.foldl (noteStep trackId channel portName t) acc).1) =
          amLookup nid acc.1 ∧
      evFor nid ((notes.foldl (noteStep trackId channel portName t) acc).2) =
          evFor nid acc.2 := by
  intro notes
  induction notes with
  | nil => intro acc _; exact ⟨rfl, rfl⟩
  | cons m rest ih =>
    intro acc h
    rw [List.foldl_cons]
    have hstep := noteStep_other nid trackId channel portName t acc m
      (h m (List.mem_cons_self _ _))
    have hrest := ih (noteStep trackId channel portName t acc m)
      (fun m' hm' => h m' (List.mem_cons_of_mem _ hm'))
    exact ⟨hrest.1.trans hstep.1, hrest.2.trans hstep.2⟩

theorem foldl_noteStep_split (nid : NoteId) (trackId channel : ℚ)
    (portName : String) (t : ℚ) (N1 : List Note) (n : Note) (N2 : List Note)
    (acc : ActiveMap × List Ev)
    (h1 : ∀ m ∈ N1, mkNoteId trackId m ≠ nid) (hid : mkNoteId trackId n = nid)
    (h2 : ∀ m ∈ N2, mkNoteId trackId m ≠ nid)
    (hnd : (amKeys acc.1).Nodup) :
    amLookup nid
        (((N1 ++ n :: N2).foldl (noteStep trackId channel portName t) acc).1) =
      (autStep nid portName channel n (amLookup nid acc.1) t).1 ∧
    evFor nid
        (((N1 ++ n :: N2).foldl (noteStep trackId channel portName t) acc).2) =
      evFor nid acc.2 ++ (autStep nid portName channel n (amLookup nid acc.1) t).2 := by
  rw [List.foldl_append, List.foldl_cons]
  have hfold1 := foldl_noteStep_other nid trackId channel portName t N1 acc h1
  have hnd1 : (amKeys ((N1.foldl (noteStep trackId channel portName t) acc).1)).Nodup :=
    foldl_noteStep_keys_nodup _ _ _ _ _ _ hnd
  have hself := noteStep_self nid trackId channel portName t
    (N1.foldl (noteStep trackId channel portName t) acc) n hid hnd1
  rw [hfold1.1] at hself
  have hrest := foldl_noteStep_other nid trackId channel portName t N2
    (noteStep trackId channel portName t
      (N1.foldl (noteStep trackId channel portName t) acc) n) h2
  refine ⟨hrest.1.trans hself.1, ?_⟩
  rw [hrest.2, hself.2, evFor_append, hfold1.2, evFor_autStep]

theorem trackStep_other (nid : NoteId) (avail : String → Bool) (t : ℚ)
    (acc : ActiveMap × List Ev) (tr : Track)
    (h : ∀ m ∈ tr.notes, mkNoteId tr.id m ≠ nid) :
    amLookup nid (trackStep avail t acc tr).1 = amLookup nid acc.1 ∧
    evFor nid (trackStep avail t acc tr).2 = evFor nid acc.2 := by
  cases hm : tr.muted with
  | true => rw [trackStep_muted _ _ _ _ hm]; exact ⟨rfl, rfl⟩
  | false =>
    cases hp : tr.midi_port with
    | none => rw [trackStep_noport _ _ _ _ hm hp]; exact ⟨rfl, rfl⟩
    | some pn =>
      cases ha : avail pn with
      | false => rw [trackStep_unavail _ _ _ _ _ hm hp ha]; exact ⟨rfl, rfl⟩
      | true =>
        rw [trackStep_run _ _ _ _ _ hm hp ha]
        exact foldl_noteStep_other nid _ _ _ _ _ acc h

theorem trackStep_self (nid : NoteId) (avail : String → Bool) (t : ℚ)
    (acc : ActiveMap × List Ev) (tr : Track) (pn : String)
    (hm : tr.muted = false) (hp : tr.midi_port = some pn) (ha : avail pn = true)
    (N1 : List Note) (n : Note) (N2 : List Note) (hnotes : tr.notes = N1 ++ n :: N2)
    (h1 : ∀ m ∈ N1, mkNoteId tr.id m ≠ nid) (hid : mkNoteId tr.id n = nid)
    (h2 : ∀ m ∈ N2, mkNoteId tr.id m ≠ nid)
    (hnd : (amKeys acc.1).Nodup) :
    amLookup nid (trackStep avail t acc tr).1 =
      (autStep nid pn tr.midi_channel n (amLookup nid acc.1) t).1 ∧
    evFor nid (trackStep avail t acc tr).2 =
      evFor nid acc.2 ++ (autStep nid pn tr.midi_channel n (amLookup nid acc.1) t).2 := by
  rw [trackStep_run _ _ _ _ _ hm hp ha, hnotes]
  exact foldl_noteStep_split nid _ _ _ _ N1 n N2 acc h1 hid h2 hnd

theorem foldl_trackStep_other (nid : NoteId) (avail : String → Bool) (t : ℚ) :
    ∀ (Ts : List Track) (acc : ActiveMap × List Ev),
      (∀ tr' ∈ Ts, ∀ m ∈ tr'.notes, mkNoteId tr'.id m ≠ nid) →
      amLookup nid ((Ts.foldl (trackStep avail t) acc).1) = amLookup nid acc.1 ∧
      evFor nid ((Ts.foldl (trackStep avail t) acc).2) = evFor nid acc.2 := by
  intro Ts
  induction Ts with
  | nil => intro acc _; exact ⟨rfl, rfl⟩
  | cons tr' rest ih =>
    intro acc h
    rw [List.foldl_cons]
    have hstep := trackStep_other nid avail t acc tr' (h tr' (List.mem_cons_self _ _))
    have hrest := ih (trackStep avail t acc tr')
      (fun tr'' htr'' => h tr'' (List.mem_cons_of_mem _ htr''))
    exact ⟨hrest.1.trans hstep.1, hrest.2.trans hstep.2⟩

/-- The whole tick, localized: if our identity occurs in exactly one
(unmuted, ported) track position, the tick acts on it like `autStep`. -/
theorem tickStep_localize (nid : NoteId) (avail : String → Bool) (t : ℚ)
    (act : ActiveMap) (T1 : List Track) (tr : Track) (T2 : List Track)
    (pn : String)
    (hm : tr.muted = false) (hp : tr.midi_port = some pn) (ha : avail pn = true)
    (N1 : List Note) (n : Note) (N2 : List Note) (hnotes : tr.notes = N1 ++ n :: N2)
    (hN1 : ∀ m ∈ N1, mkNoteId tr.id m ≠ nid) (hid : mkNoteId tr.id n = nid)
    (hN2 : ∀ m ∈ N2, mkNoteId tr.id m ≠ nid)
    (hT1 : ∀ tr' ∈ T1, ∀ m ∈ tr'.notes, mkNoteId tr'.id m ≠ nid)
    (hT2 : ∀ tr' ∈ T2, ∀ m ∈ tr'.notes, mkNoteId tr'.id m ≠ nid)
    (hnd : (amKeys act).Nodup) :
    amLookup nid (tickStep avail t (T1 ++ tr :: T2) act).1 =
      (autStep nid pn tr.midi_channel n (amLookup nid act) t).1 ∧
    evFor nid (tickStep avail t (T1 ++ tr :: T2) act).2 =
      (autStep nid pn tr.midi_channel n (amLookup nid act) t).2 := by
  unfold tickStep
  rw [List.foldl_append, List.foldl_cons]
  have hfold1 := foldl_trackStep_other nid avail t T1 (act, []) hT1
  have hnd1 : (amKeys ((T1.foldl (trackStep avail t) (act, [])).1)).Nodup :=
    foldl_trackStep_keys_nodup _ _ _ _ hnd
  have hself := trackStep_self nid avail t (T1.foldl (trackStep avail t) (act, []))
    tr pn hm hp ha N1 n N2 hnotes hN1 hid hN2 hnd1
  rw [hfold1.1] at hself
  have hrest := foldl_trackStep_other nid avail t T2
    (trackStep avail t (T1.foldl (trackStep avail t) (act, [])) tr) hT2
  refine ⟨hrest.1.trans hself.1, ?_⟩
  rw [hrest.2, hself.2, hfold1.2]
  rfl

theorem note1Run_nil (nid : NoteId) (pn : String) (ch : ℚ) (n : Note)
    (s : Option PortInfo) : note1Run nid pn ch n s [] = (s, []) := rfl

theorem note1Run_cons (nid : NoteId) (pn : String) (ch : ℚ) (n : Note)
    (s : Option PortInfo) (t : ℚ) (ts : List ℚ) :
    note1Run nid pn ch n s (t :: ts) =
      ((note1Run nid pn ch n (autStep nid pn ch n s t).1 ts).1,
       (autStep nid pn ch n s t).2 ::
         (note1Run nid pn ch n (autStep nid pn ch n s t).1 ts).2) := rfl

/-- The whole run, localized to one identity: the per-tick positions are
the converted elapsed times, and the per-tick events tagged with our
identity (plus its final `active_notes` entry) follow the single-note
automaton over those positions. -/
theorem runTicks_localize (nid : NoteId) (avail : String → Bool) (bpm0 : ℚ)
    (T1 : List Track) (tr : Track) (T2 : List Track) (pn : String)
    (hm : tr.muted = false) (hp : tr.midi_port = some pn) (ha : avail pn = true)
    (N1 : List Note) (n : Note) (N2 : List Note) (hnotes : tr.notes = N1 ++ n :: N2)
    (hN1 : ∀ m ∈ N1, mkNoteId tr.id m ≠ nid) (hid : mkNoteId tr.id n = nid)
    (hN2 : ∀ m ∈ N2, mkNoteId tr.id m ≠ nid)
    (hT1 : ∀ tr' ∈ T1, ∀ m ∈ tr'.notes, mkNoteId tr'.id m ≠ nid)
    (hT2 : ∀ tr' ∈ T2, ∀ m ∈ tr'.notes, mkNoteId tr'.id m ≠ nid) :
    ∀ (ins : List TickIn) (prev : ℚ) (act : ActiveMap),
      prev < 16 →
      (∀ inp ∈ ins, inp.tracks = T1 ++ tr :: T2) →
      (∀ inp ∈ ins, posOf bpm0 inp.elapsed < 16) →
      (amKeys act).Nodup →
      ((runTicks avail bpm0 prev ins act).1.map (fun o => o.1) =
          ins.map (fun inp => posOf bpm0 inp.elapsed)) ∧
      ((runTicks avail bpm0 prev ins act).1.map (fun o => evFor nid o.2.2) =
          (note1Run nid pn tr.midi_channel n (amLookup nid act)
            (ins.map (fun inp => posOf bpm0 inp.elapsed))).2) ∧
      (amLookup nid (runTicks avail bpm0 prev ins act).2 =
          (note1Run nid pn tr.midi_channel n (amLookup nid act)
            (ins.map (fun inp => posOf bpm0 inp.elapsed))).1) := by
  intro ins
  induction ins with
  | nil =>
    intro prev act _ _ _ _
    rw [runTicks_nil]
    exact ⟨rfl, rfl, rfl⟩
  | cons inp rest ih =>
    intro prev act hprev hconst hlt hnd
    have htrk : inp.tracks = T1 ++ tr :: T2 := hconst inp (List.mem_cons_self _ _)
    rw [runTicks_cons_lt _ _ _ _ _ _ hprev, htrk]
    have hloc := tickStep_localize nid avail (posOf bpm0 inp.elapsed) act
      T1 tr T2 pn hm hp ha N1 n N2 hnotes hN1 hid hN2 hT1 hT2 hnd
    have hnd2 : (amKeys (tickStep avail (posOf bpm0 inp.elapsed)
        (T1 ++ tr :: T2) act).1).Nodup :=
      tickStep_keys_nodup _ _ _ _ hnd
    have hih := ih (posOf bpm0 inp.elapsed)
      ((tickStep avail (posOf bpm0 inp.elapsed) (T1 ++ tr :: T2) act).1)
      (hlt inp (List.mem_cons_self _ _))
      (fun inp' hinp' => hconst inp' (List.mem_cons_of_mem _ hinp'))
      (fun inp' hinp' => hlt inp' (List.mem_cons_of_mem _ hinp'))
      hnd2
    refine ⟨?_, ?_, ?_⟩
    · simp only [List.map_cons]
      rw [hih.1]
    · simp only [List.map_cons, note1Run_cons]
      rw [hloc.2, hih.2.1, hloc.1]
    · simp only [List.map_cons, note1Run_cons]
      rw [hih.2.2, hloc.1]

/-! #### Phase analysis of the single-note automaton -/

theorem autStep_none_out (nid : NoteId) (pn : String) (ch : ℚ) (n : Note) (t : ℚ)
    (h : ¬ (n.start ≤ t ∧ t < n.start + n.duration)) :
    autStep nid pn ch n none t = (none, []) := by
  rw [autStep.eq_def, if_neg h]

theorem autStep_none_in (nid : NoteId) (pn : String) (ch : ℚ) (n : Note) (t : ℚ)
    (h : n.start ≤ t ∧ t < n.start + n.duration) :
    autStep nid pn ch n none t =
      (some (pn, ch, n.pitch), [Ev.noteOn nid pn ch n.pitch n.velocity]) := by
  rw [autStep.eq_def, if_pos h]

theorem autStep_some_in (nid : NoteId) (pn : String) (ch : ℚ) (n : Note) (t : ℚ)
    (v : PortInfo) (h : n.start ≤ t ∧ t < n.start + n.duration) :
    autStep nid pn ch n (some v) t = (some v, []) := by
  rw [autStep.eq_def, if_pos h]

theorem autStep_some_off (nid : NoteId) (pn : String) (ch : ℚ) (n : Note) (t : ℚ)
    (v : PortInfo) (h1 : ¬ (n.start ≤ t ∧ t < n.start + n.duration))
    (h3 : n.start + n.duration ≤ t) :
    autStep nid pn ch n (some v) t = (none, [Ev.noteOff (some nid) v.1 v.2.1 v.2.2]) := by
  rw [autStep.eq_def, if_neg h1]
  dsimp only
  rw [if_pos h3]

theorem note1Run_none_idle (nid : NoteId) (pn : String) (ch : ℚ) (n : Note) :
    ∀ ts : List ℚ, (∀ t ∈ ts, ¬ (n.start ≤ t ∧ t < n.start + n.duration)) →
      note1Run nid pn ch n none ts = (none, ts.map (fun _ => ([] : List Ev))) := by
  intro ts
  induction ts with
  | nil => intro _; rfl
  | cons t rest ih =>
    intro h
    rw [note1Run_cons, autStep_none_out _ _ _ _ _ (h t (List.mem_cons_self _ _))]
    rw [ih (fun t' ht' => h t' (List.mem_cons_of_mem _ ht'))]
    rfl

theorem note1Run_some_hold (nid : NoteId) (pn : String) (ch : ℚ) (n : Note)
    (v : PortInfo) :
    ∀ ts : List ℚ, (∀ t ∈ ts, n.start ≤ t ∧ t < n.start + n.duration) →
      note1Run nid pn ch n (some v) ts = (some v, ts.map (fun _ => ([] : List Ev))) := by
  intro ts
  induction ts with
  | nil => intro _; rfl
  | cons t rest ih =>
    intro h
    rw [note1Run_cons, autStep_some_in _ _ _ _ _ _ (h t (List.mem_cons_self _ _))]
    rw [ih (fun t' ht' => h t' (List.mem_cons_of_mem _ ht'))]
    rfl

theorem note1Run_append (nid : NoteId) (pn : String) (ch : ℚ) (n : Note) :
    ∀ (l1 l2 : List ℚ) (s : Option PortInfo),
      note1Run nid pn ch n s (l1 ++ l2) =
        ((note1Run nid pn ch n (note1Run nid pn ch n s l1).1 l2).1,
         (note1Run nid pn ch n s l1).2 ++
           (note1Run nid pn ch n (note1Run nid pn ch n s l1).1 l2).2) := by
  intro l1
  induction l1 with
  | nil =>
    intro l2 s
    rw [List.nil_append, note1Run_nil]
    rfl
  | cons t rest ih =>
    intro l2 s
    rw [List.cons_append, note1Run_cons, ih, note1Run_cons]
    rfl

/-- The full event trace of the single-note automaton on a phase-decomposed
monotone position list: silence before the span, one note-on at the first
in-span position, silence inside the span, one note-off at the first
past-end position, silence after, ending not-sounding. -/
theorem note1Run_phases (nid : NoteId) (pn : String) (ch : ℚ) (n : Note)
    (A : List ℚ) (ti : ℚ) (B : List ℚ) (tj : ℚ) (C : List ℚ)
    (hA : ∀ t ∈ A, t < n.start)
    (hti : n.start ≤ ti ∧ ti < n.start + n.duration)
    (hB : ∀ t ∈ B, n.start ≤ t ∧ t < n.start + n.duration)
    (htj : n.start + n.duration ≤ tj)
    (hC : ∀ t ∈ C, n.start + n.duration ≤ t) :
    note1Run nid pn ch n none (A ++ ti :: (B ++ tj :: C)) =
      (none,
       A.map (fun _ => ([] : List Ev)) ++
         [Ev.noteOn nid pn ch n.pitch n.velocity] ::
           (B.map (fun _ => ([] : List Ev)) ++
             [Ev.noteOff (some nid) pn ch n.pitch] ::
               C.map (fun _ => ([] : List Ev)))) := by
  have hA' : ∀ t ∈ A, ¬ (n.start ≤ t ∧ t < n.start + n.duration) := by
    intro t ht hsp
    exact absurd (hA t ht) (not_lt.mpr hsp.1)
  have hC' : ∀ t ∈ C, ¬ (n.start ≤ t ∧ t < n.start + n.duration) := by
    intro t ht hsp
    exact absurd hsp.2 (not_lt.mpr (hC t ht))
  have htj' : ¬ (n.start ≤ tj ∧ tj < n.start + n.duration) := by
    intro hsp
    exact absurd hsp.2 (not_lt.mpr htj)
  rw [note1Run_append, note1Run_none_idle _ _ _ _ A hA']
  dsimp only
  rw [note1Run_cons, autStep_none_in _ _ _ _ _ hti]
  dsimp only
  rw [note1Run_append, note1Run_some_hold _ _ _ _ _ B hB]
  dsimp only
  rw [note1Run_cons, autStep_some_off _ _ _ _ _ _ htj' htj]
  dsimp only
  rw [note1Run_none_idle _ _ _ _ C hC']

theorem sorted_split_at_end (e : ℚ) :
    ∀ ts : List ℚ, ts.Pairwise (· ≤ ·) → (∃ t ∈ ts, e ≤ t) →
      ∃ B tj C, ts = B ++ tj :: C ∧ (∀ t ∈ B, t < e) ∧ e ≤ tj ∧
        (∀ t ∈ C, e ≤ t) := by
  intro ts
  induction ts with
  | nil =>
    rintro _ ⟨t, ht, _⟩
    cases ht
  | cons t0 rest ih =>
    intro hsort hex
    rw [List.pairwise_cons] at hsort
    by_cases h0 : e ≤ t0
    · exact ⟨[], t0, rest, rfl, by simp, h0,
        fun t ht => le_trans h0 (hsort.1 t ht)⟩
    · obtain ⟨t, ht, hte⟩ := hex
      rcases List.mem_cons.mp ht with rfl | ht
      · exact absurd hte h0
      · obtain ⟨B, tj, C, hs, hB, htj, hC⟩ := ih hsort.2 ⟨t, ht, hte⟩
        refine ⟨t0 :: B, tj, C, by rw [List.cons_append, hs], ?_, htj, hC⟩
        intro t' ht'
        rcases List.mem_cons.mp ht' with rfl | ht'
        · exact lt_of_not_le h0
        · exact hB t' ht'

theorem sorted_phase_split (s e : ℚ) :
    ∀ ts : List ℚ, ts.Pairwise (· ≤ ·) →
      (∃ t ∈ ts, s ≤ t ∧ t < e) → (∃ t ∈ ts, e ≤ t) →
      ∃ A ti B tj C, ts = A ++ ti :: (B ++ tj :: C) ∧
        (∀ t ∈ A, t < s) ∧ (s ≤ ti ∧ ti < e) ∧
        (∀ t ∈ B, s ≤ t ∧ t < e) ∧ e ≤ tj ∧ (∀ t ∈ C, e ≤ t) := by
  intro ts
  induction ts with
  | nil =>
    rintro _ ⟨t, ht, _⟩ _
    cases ht
  | cons t0 rest ih =>
    intro hsort hspan hend
    rw [List.pairwise_cons] at hsort
    by_cases hs0 : s ≤ t0
    · by_cases he0 : t0 < e
      · obtain ⟨t, ht, hte⟩ := hend
        have htrest : t ∈ rest := by
          rcases List.mem_cons.mp ht with rfl | h
          · exact absurd he0 (not_lt.mpr hte)
          · exact h
        obtain ⟨B, tj, C, hsplit, hB, htj, hC⟩ :=
          sorted_split_at_end e rest hsort.2 ⟨t, htrest, hte⟩
        refine ⟨[], t0, B, tj, C, by rw [List.nil_append, hsplit], by simp,
          ⟨hs0, he0⟩, ?_, htj, hC⟩
        intro t' ht'
        have : t' ∈ rest := by rw [hsplit]; exact List.mem_append.mpr (Or.inl ht')
        exact ⟨le_trans hs0 (hsort.1 t' this), hB t' ht'⟩
      · obtain ⟨t, ht, hts, hte⟩ := hspan
        rcases List.mem_cons.mp ht with rfl | ht
        · exact absurd hte he0
        · exact absurd hte (not_lt.mpr (le_trans (le_of_not_lt he0) (hsort.1 t ht)))
    · have hspan' : ∃ t ∈ rest, s ≤ t ∧ t < e := by
        obtain ⟨t, ht, hts, hte⟩ := hspan
        rcases List.mem_cons.mp ht with rfl | ht
        · exact absurd hts hs0
        · exact ⟨t, ht, hts, hte⟩
      have hend' : ∃ t ∈ rest, e ≤ t := by
        obtain ⟨t, ht, hte⟩ := hend
        rcases List.mem_cons.mp ht with rfl | ht
        · obtain ⟨t', _, hts', hte'⟩ := hspan
          have h0s : t < s := lt_of_not_le hs0
          exact absurd hte (by linarith)
        · exact ⟨t, ht, hte⟩
      obtain ⟨A, ti, B, tj, C, hsplit, hA, hti, hB, htj, hC⟩ :=
        ih hsort.2 hspan' hend'
      refine ⟨t0 :: A, ti, B, tj, C, by rw [List.cons_append, hsplit], ?_,
        hti, hB, htj, hC⟩
      intro t' ht'
      rcases List.mem_cons.mp ht' with rfl | ht'
      · exact lt_of_not_le hs0
      · exact hA t' ht'

theorem evFor_flush_of_lookup_none (nid : NoteId) :
    ∀ act : ActiveMap, amLookup nid act = none →
      evFor nid (flushEvents act) = [] := by
  intro act
  induction act with
  | nil => intro _; rfl
  | cons e r ih =>
    intro h
    rw [amLookup] at h
    by_cases he : e.1 = nid
    · rw [if_pos he] at h; cases h
    · rw [if_neg he] at h
      show evFor nid (Ev.noteOff (some e.1) e.2.1 e.2.2.1 e.2.2.2 ::
        flushEvents r) = []
      rw [show (Ev.noteOff (some e.1) e.2.1 e.2.2.1 e.2.2.2 :: flushEvents r) =
          [Ev.noteOff (some e.1) e.2.1 e.2.2.1 e.2.2.2] ++ flushEvents r from rfl,
        evFor_append, evFor_off_single_ne _ _ _ _ _ he, ih h]
      rfl

/-- Claim C1: during a single playback run over a fixed, monotone tick
stream (all positions below the 16-beat loop end), a note of an unmuted
track with an open port, whose identity `(track.id, pitch, start)` occurs
nowhere else in the track list, gets exactly one note-on — with its pitch,
its velocity and its track's channel — at the first tick whose position
lies in `[start, start + duration)`, exactly one note-off at the first
later tick whose position reaches `start + duration`, and no further
events for that identity anywhere in the run, the exit flush included.
The conclusion lists the per-tick positions and the per-tick events
filtered to the identity, index-aligned: positions decompose into
before-span / first-in-span / in-span / first-past-end / after phases, and
the filtered event stream is empty everywhere except the single note-on
batch and the single note-off batch at those two ticks. -/
theorem C1_scheduler_event_pairing (avail : String → Bool) (bpm0 : ℚ)
    (T1 : List Track) (tr : Track) (T2 : List Track) (pn : String)
    (N1 : List Note) (n : Note) (N2 : List Note) (ins : List TickIn)
    (hm : tr.muted = false) (hp : tr.midi_port = some pn) (ha : avail pn = true)
    (hnotes : tr.notes = N1 ++ n :: N2)
    (hN1 : ∀ m ∈ N1, mkNoteId tr.id m ≠ mkNoteId tr.id n)
    (hN2 : ∀ m ∈ N2, mkNoteId tr.id m ≠ mkNoteId tr.id n)
    (hT1 : ∀ tr' ∈ T1, ∀ m ∈ tr'.notes, mkNoteId tr'.id m ≠ mkNoteId tr.id n)
    (hT2 : ∀ tr' ∈ T2, ∀ m ∈ tr'.notes, mkNoteId tr'.id m ≠ mkNoteId tr.id n)
    (hconst : ∀ inp ∈ ins, inp.tracks = T1 ++ tr :: T2)
    (hsort : (ins.map (fun inp => posOf bpm0 inp.elapsed)).Pairwise (· ≤ ·))
    (hlt : ∀ inp ∈ ins, posOf bpm0 inp.elapsed < 16)
    (hspan : ∃ inp ∈ ins, n.start ≤ posOf bpm0 inp.elapsed ∧
        posOf bpm0 inp.elapsed < n.start + n.duration)
    (hend : ∃ inp ∈ ins, n.start + n.duration ≤ posOf bpm0 inp.elapsed) :
    ∃ A : List ℚ, ∃ ti : ℚ, ∃ B : List ℚ, ∃ tj : ℚ, ∃ C : List ℚ,
      ((runTicks avail bpm0 0 ins []).1.map (fun o => o.1) =
          A ++ ti :: (B ++ tj :: C)) ∧
      (∀ t ∈ A, t < n.start) ∧
      (n.start ≤ ti ∧ ti < n.start + n.duration) ∧
      (∀ t ∈ B, n.start ≤ t ∧ t < n.start + n.duration) ∧
      (n.start + n.duration ≤ tj) ∧
      (∀ t ∈ C, n.start + n.duration ≤ t) ∧
      ((runTicks avail bpm0 0 ins []).1.map
          (fun o => evFor (mkNoteId tr.id n) o.2.2) =
        A.map (fun _ => ([] : List Ev)) ++
          [Ev.noteOn (mkNoteId tr.id n) pn tr.midi_channel n.pitch n.velocity] ::
            (B.map (fun _ => ([] : List Ev)) ++
              [Ev.noteOff (some (mkNoteId tr.id n)) pn tr.midi_channel n.pitch] ::
                C.map (fun _ => ([] : List Ev)))) ∧
      evFor (mkNoteId tr.id n)
          (flushEvents (runTicks avail bpm0 0 ins []).2) = [] := by
  have hspan' : ∃ t ∈ ins.map (fun inp => posOf bpm0 inp.elapsed),
      n.start ≤ t ∧ t < n.start + n.duration := by
    obtain ⟨inp, hinp, h⟩ := hspan
    exact ⟨_, List.mem_map_of_mem _ hinp, h⟩
  have hend' : ∃ t ∈ ins.map (fun inp => posOf bpm0 inp.elapsed),
      n.start + n.duration ≤ t := by
    obtain ⟨inp, hinp, h⟩ := hend
    exact ⟨_, List.mem_map_of_mem _ hinp, h⟩
  obtain ⟨A, ti, B, tj, C, hts, hA, hti, hB, htj, hC⟩ :=
    sorted_phase_split n.start (n.start + n.duration)
      (ins.map (fun inp => posOf bpm0 inp.elapsed)) hsort hspan' hend'
  have hrun := runTicks_localize (mkNoteId tr.id n) avail bpm0 T1 tr T2 pn
    hm hp ha N1 n N2 hnotes hN1 rfl hN2 hT1 hT2 ins 0 []
    (by norm_num) hconst hlt (by simp [amKeys])
  have hphases := note1Run_phases (mkNoteId tr.id n) pn tr.midi_channel n
    A ti B tj C hA hti hB htj hC
  have hnone : amLookup (mkNoteId tr.id n) ([] : ActiveMap) = none := rfl
  refine ⟨A, ti, B, tj, C, ?_, hA, hti, hB, htj, hC, ?_, ?_⟩
  · rw [hrun.1, hts]
  · rw [hrun.2.1, hnone, hts, hphases]
  · refine evFor_flush_of_lookup_none _ _ ?_
    rw [hrun.2.2, hnone, hts, hphases]

/-- Witness scenario for C1: the spec's own example — one track (id 0,
channel 0, port `"p"`) with the single note `{pitch 64, start 2, duration
1}` at 120 BPM, ticks at elapsed 0.5 s, 1 s, 1.5 s (positions 1, 2, 3):
the note-on fires at position 2 and the note-off at position 3. -/
def trackC1 : Track :=
  { id := 0, name := "Track 1", notes := [⟨64, 2, 1, 100⟩], color := "#3b82f6",
    muted := false, midi_port := some "p", midi_channel := 0, instrument := 0 }

def insC1 : List TickIn :=
  [⟨1/2, [trackC1], 120⟩, ⟨1, [trackC1], 120⟩, ⟨3/2, [trackC1], 120⟩]

theorem C1_scheduler_event_pairing_witness :
    ∃ A : List ℚ, ∃ ti : ℚ, ∃ B : List ℚ, ∃ tj : ℚ, ∃ C : List ℚ,
      ((runTicks (fun _ => true) 120 0 insC1 []).1.map (fun o => o.1) =
          A ++ ti :: (B ++ tj :: C)) ∧
      (∀ t ∈ A, t < (⟨64, 2, 1, 100⟩ : Note).start) ∧
      ((⟨64, 2, 1, 100⟩ : Note).start ≤ ti ∧
        ti < (⟨64, 2, 1, 100⟩ : Note).start + (⟨64, 2, 1, 100⟩ : Note).duration) ∧
      (∀ t ∈ B, (⟨64, 2, 1, 100⟩ : Note).start ≤ t ∧
        t < (⟨64, 2, 1, 100⟩ : Note).start + (⟨64, 2, 1, 100⟩ : Note).duration) ∧
      ((⟨64, 2, 1, 100⟩ : Note).start + (⟨64, 2, 1, 100⟩ : Note).duration ≤ tj) ∧
      (∀ t ∈ C, (⟨64, 2, 1, 100⟩ : Note).start + (⟨64, 2, 1, 100⟩ : Note).duration ≤ t) ∧
      ((runTicks (fun _ => true) 120 0 insC1 []).1.map
          (fun o => evFor (mkNoteId trackC1.id ⟨64, 2, 1, 100⟩) o.2.2) =
        A.map (fun _ => ([] : List Ev)) ++
          [Ev.noteOn (mkNoteId trackC1.id ⟨64, 2, 1, 100⟩) "p" trackC1.midi_channel
              (⟨64, 2, 1, 100⟩ : Note).pitch (⟨64, 2, 1, 100⟩ : Note).velocity] ::
            (B.map (fun _ => ([] : List Ev)) ++
              [Ev.noteOff (some (mkNoteId trackC1.id ⟨64, 2, 1, 100⟩)) "p"
                  trackC1.midi_channel (⟨64, 2, 1, 100⟩ : Note).pitch] ::
                C.map (fun _ => ([] : List Ev)))) ∧
      evFor (mkNoteId trackC1.id ⟨64, 2, 1, 100⟩)
          (flushEvents (runTicks (fun _ => true) 120 0 insC1 []).2) = [] :=
  C1_scheduler_event_pairing (fun _ => true) 120 [] trackC1 [] "p"
    [] ⟨64, 2, 1, 100⟩ [] insC1 rfl rfl rfl rfl
    (by simp) (by simp) (by simp) (by simp)
    (by intro inp hinp
        simp only [insC1, List.mem_cons, List.not_mem_nil, or_false] at hinp
        rcases hinp with rfl | rfl | rfl <;> rfl)
    (by with_unfolding_all decide)
    (by intro inp hinp
        simp only [insC1, List.mem_cons, List.not_mem_nil, or_false] at hinp
        rcases hinp with rfl | rfl | rfl <;> with_unfolding_all decide)
    ⟨⟨1, [trackC1], 120⟩, by simp [insC1], by with_unfolding_all decide⟩
    ⟨⟨3/2, [trackC1], 120⟩, by simp [insC1], by with_unfolding_all decide⟩

/-! ### Persistence codec

`save_to_file` (lines 588-615) serializes to JSON; `load_from_file`
(lines 617-664) parses with `json.load` and then assigns fields into the
live editor state inside one `try/except`.  JSON values are modelled by
`JVal`; a document that fails `json.load` is modelled as `none` at
`load_from_file`.  The editor state modelled here carries the persisted /
edited fields (tracks, `active_track`, `bpm`) plus `available_ports`
(fixed for the session); file naming, dialogs and widget updates are UI
concern.  Restriction: where Python would silently store a raw non-numeric
JSON value into a numeric field (`bpm`, note fields, `midi_channel`,
`instrument`), this typed model reports an error instead; no theorem or
counterexample below depends on such documents. -/

inductive JVal where
  | jnull
  | jbool (b : Bool)
  | jnum (q : ℚ)
  | jstr (s : String)
  | jarr (xs : List JVal)
  | jobj (fields : List (String × JVal))

/-- Python `dict` lookup on the parsed object (insertion order). -/
def jGet : List (String × JVal) → String → Option JVal
  | [], _ => none
  | f :: r, k => if f.1 = k then some f.2 else jGet r k

/-- `dict.get(k, d)`. -/
def jGetD (fields : List (String × JVal)) (k : String) (d : JVal) : JVal :=
  (jGet fields k).getD d

def jAsNum : JVal → Option ℚ
  | .jnum q => some q
  | _ => none

/-- The editor's persistent state: `self.tracks`, `self.active_track`,
`self.bpm` (lines 94-101), plus the session's `available_ports`. -/
structure EditorState where
  tracks : List Track
  active_track : ℕ
  bpm : ℚ
  available_ports : List String
deriving DecidableEq

def modifyIdx {α : Type} (f : α → α) : ℕ → List α → List α
  | _, [] => []
  | 0, a :: r => f a :: r
  | n+1, a :: r => a :: modifyIdx f n r

def setTrackAt (st : EditorState) (i : ℕ) (f : Track → Track) : EditorState :=
  { st with tracks := modifyIdx f i st.tracks }

/-- `Track.__init__` defaults plus `create_ui`'s port preselection
(lines 214-216: the first available port, if any). -/
def initTrack (i : ℕ) (nm color : String) (ports : List String) : Track :=
  { id := (i : ℚ), name := nm, notes := [], color := color, muted := false,
    midi_port := ports.head?, midi_channel := (i : ℚ), instrument := 0 }

/-- Fresh editor state (lines 94-101): 4 empty tracks, bpm 120, active 0. -/
def initState (ports : List String) : EditorState :=
  { tracks := [initTrack 0 "Track 1" "#3b82f6" ports,
               initTrack 1 "Track 2" "#10b981" ports,
               initTrack 2 "Track 3" "#f59e0b" ports,
               initTrack 3 "Track 4" "#ef4444" ports],
    active_track := 0, bpm := 120, available_ports := ports }

/-- The documented edit commands, as the source's handlers implement them:
`canvas_click`, `clear_track`, `select_track`, `toggle_mute`,
`on_channel_change` (combo offers 0..15), `on_instrument_change` (a GM
table value), `on_port_change` (combo offers an available port),
`update_bpm` (parsed integer, clamped to 40..240 else kept). -/
inductive EditOp where
  | toggleNote (pitch rawBeat : ℚ)
  | clearTrack
  | setActiveTrack (tid : ℕ)
  | toggleMute (tid : ℕ)
  | setChannel (tid : ℕ) (c : ℚ)
  | setInstrument (tid : ℕ) (v : ℚ)
  | setSink (tid : ℕ) (ref : String)
  | setBpm (v : ℤ)

def applyOp (st : EditorState) : EditOp → EditorState
  | .toggleNote p b =>
    setTrackAt st st.active_track
      (fun tr => { tr with notes := (canvas_click tr.notes p b).1 })
  | .clearTrack =>
    setTrackAt st st.active_track (fun tr => { tr with notes := [] })
  | .setActiveTrack tid => { st with active_track := tid }
  | .toggleMute tid => setTrackAt st tid (fun tr => { tr with muted := !tr.muted })
  | .setChannel tid c => setTrackAt st tid (fun tr => { tr with midi_channel := c })
  | .setInstrument tid v => setTrackAt st tid (fun tr => { tr with instrument := v })
  | .setSink tid ref => setTrackAt st tid (fun tr => { tr with midi_port := some ref })
  | .setBpm v => if 40 ≤ v ∧ v ≤ 240 then { st with bpm := (v : ℚ) } else st

def applyOps (ops : List EditOp) (st : EditorState) : EditorState :=
  ops.foldl applyOp st

/-- `save_to_file`'s note dict (lines 598-605). -/
def note_to_json (n : Note) : JVal :=
  .jobj [("pitch", .jnum n.pitch), ("start", .jnum n.start),
         ("duration", .jnum n.duration), ("velocity", .jnum n.velocity)]

/-- `save_to_file`'s track dict (lines 592-606): name, midi_port (null if
unset), midi_channel, instrument, notes — and no `muted` field. -/
def track_to_json (tr : Track) : JVal :=
  .jobj [("name", .jstr tr.name),
         ("midi_port", match tr.midi_port with
                       | some s => .jstr s
                       | none => .jnull),
         ("midi_channel", .jnum tr.midi_channel),
         ("instrument", .jnum tr.instrument),
         ("notes", .jarr (tr.notes.map note_to_json))]

/-- `save_to_file`'s top-level dict (lines 590-608): bpm and tracks — and
no `active_track` field. -/
def save_to_data (st : EditorState) : JVal :=
  .jobj [("bpm", .jnum st.bpm), ("tracks", .jarr (st.tracks.map track_to_json))]

/-- One element of the note list comprehension (line 638):
`Note(n['pitch'], n['start'], n['duration'], n.get('velocity', 100))`.
Missing keys raise `KeyError`, a non-dict raises on indexing; both give
`none` (the exception aborts the comprehension before any assignment). -/
def parse_note (v : JVal) : Option Note :=
  match v with
  | .jobj nf =>
    match jGet nf "pitch" with
    | none => none
    | some pv =>
      match jAsNum pv with
      | none => none
      | some p =>
        match jGet nf "start" with
        | none => none
        | some sv =>
          match jAsNum sv with
          | none => none
          | some s =>
            match jGet nf "duration" with
            | none => none
            | some dv =>
              match jAsNum dv with
              | none => none
              | some d =>
                match jAsNum (jGetD nf "velocity" (.jnum 100)) with
                | none => none
                | some vel => some ⟨p, s, d, vel⟩
  | _ => none

def parse_notes : List JVal → Option (List Note)
  | [] => some []
  | v :: r =>
    match parse_note v with
    | none => none
    | some n =>
      match parse_notes r with
      | none => none
      | some ns => some (n :: ns)

/-- Lines 651-657: `if 'instrument' in track_data: track.instrument = ...`
(the reverse name lookup only updates a combo box). -/
def load_instrument (tf : List (String × JVal)) (i : ℕ) (st : EditorState) :
    EditorState × Bool :=
  match jGet tf "instrument" with
  | some iv =>
    match jAsNum iv with
    | none => (st, true)
    | some v => (setTrackAt st i (fun tr => { tr with instrument := v }), false)
  | none => (st, false)

/-- Lines 636-657: restore one track from its dict, mutating in source
order — notes, then midi_port (only if present, a string, and currently
available), then midi_channel, then instrument.  An exception part-way
leaves the earlier assignments in place (the error flag is `true`). -/
def load_track (td : JVal) (i : ℕ) (st : EditorState) : EditorState × Bool :=
  match td with
  | .jobj tf =>
    match jGetD tf "notes" (.jarr []) with
    | .jarr ns =>
      match parse_notes ns with
      | none => (st, true)
      | some newNotes =>
        let st1 := setTrackAt st i (fun tr => { tr with notes := newNotes })
        let st2 :=
          match jGet tf "midi_port" with
          | some (.jstr s) =>
            if s ∈ st1.available_ports then
              setTrackAt st1 i (fun tr => { tr with midi_port := some s })
            else st1
          | _ => st1
        match jGet tf "midi_channel" with
        | some cv =>
          match jAsNum cv with
          | none => (st2, true)
          | some c =>
            load_instrument tf i
              (setTrackAt st2 i (fun tr => { tr with midi_channel := c }))
        | none => load_instrument tf i st2
    | _ => (st, true)
  | _ => (st, true)

/-- Line 635: `for i, track_data in enumerate(data.get('tracks', [])[:4])`;
the first failing track aborts the loop with the state as mutated so far. -/
def load_tracks : List JVal → ℕ → EditorState → EditorState × Bool
  | [], _, st => (st, false)
  | td :: r, i, st =>
    match load_track td i st with
    | (st', true) => (st', true)
    | (st', false) => load_tracks r (i+1) st'

/-- Lines 628-657 after a successful `json.load`: bpm is assigned first,
then up to 4 tracks are restored; any exception is caught by the outer
`except` (line 663) which reports the error, leaving all assignments made
before the raise in place.  (A non-list `tracks` value raises at the slice
or during iteration — except the empty-string corner, not modelled.) -/
def load_from_data (d : JVal) (st : EditorState) : EditorState × Bool :=
  match d with
  | .jobj fields =>
    match jAsNum (jGetD fields "bpm" (.jnum 120)) with
    | none => (st, true)
    | some b =>
      match jGetD fields "tracks" (.jarr []) with
      | .jarr ts => load_tracks (ts.take 4) 0 { st with bpm := b }
      | _ => ({ st with bpm := b }, true)
  | _ => (st, true)

/-- `load_from_file` including the `json.load` step: a document that fails
to parse (`none`) raises before any state is touched. -/
def load_from_file (doc : Option JVal) (st : EditorState) : EditorState × Bool :=
  match doc with
  | none => (st, true)
  | some d => load_from_data d st

/-! ### Claim C10 -/

/-- A well-formed-looking document whose single track has a note object
missing every field: `{"bpm": 90, "tracks": [{"notes": [{}]}]}`. -/
def docC10 : JVal :=
  .jobj [("bpm", .jnum 90),
         ("tracks", .jarr [.jobj [("notes", .jarr [.jobj []])]])]

/-- Claim C10 counterexample: loading `docC10` reports an error (the
note's missing `pitch` raises `KeyError`), but by then `self.bpm` has
already been assigned 90, so the in-memory Sequence is *not* left exactly
as it was before the failed load. -/
theorem C10_failed_load_cx :
    load_from_data docC10 (initState []) =
      ({ initState [] with bpm := 90 }, true) ∧
    ({ initState [] with bpm := 90 } : EditorState) ≠ initState [] := by
  with_unfolding_all decide

/-- Claim C10 (amended): a *structurally* invalid document — text that
fails JSON parsing, or a parsed document whose top level is not an
object — is rejected before any mutation: the error is reported and the
Sequence is left exactly as it was.  But a document that parses as an
object and fails deeper (e.g. a note with a missing or unparsable field)
reports an error *after* the assignments already made (bpm, earlier
tracks' fields), which persist: a failed load is not transactional. -/
theorem C10_amended_nondestructive (doc : Option JVal) (st : EditorState)
    (h : doc = none ∨ ∃ d, doc = some d ∧ ∀ fields, d ≠ JVal.jobj fields) :
    load_from_file doc st = (st, true) := by
  rcases h with rfl | ⟨d, rfl, hd⟩
  · rfl
  · show load_from_data d st = (st, true)
    cases d with
    | jobj fields => exact absurd rfl (hd fields)
    | jnull => rfl
    | jbool b => rfl
    | jnum q => rfl
    | jstr s => rfl
    | jarr xs => rfl

/-- Witness for the amended C10: a failed `json.load` leaves the fresh
state untouched. -/
theorem C10_amended_nondestructive_witness :
    load_from_file none (initState []) = (initState [], true) :=
  C10_amended_nondestructive none (initState []) (Or.inl rfl)

/-! ### Claim C9: what the codec round-trips -/

/-- The per-track fields that `save_to_file` writes and `load_from_file`
restores (name is written but only ever carries its default, since no edit
command renames a track): name, sink, channel, instrument, notes.
`muted` is absent: `save_to_file` never writes it. -/
def persistedFields (tr : Track) :
    String × Option String × ℚ × ℚ × List Note :=
  (tr.name, tr.midi_port, tr.midi_channel, tr.instrument, tr.notes)

/-- What loading a saved track does to the in-memory track at its index. -/
def restoreFun (tr : Track) (t : Track) : Track :=
  { t with
    notes := tr.notes,
    midi_port := match tr.midi_port with
                 | some s => some s
                 | none => t.midi_port,
    midi_channel := tr.midi_channel,
    instrument := tr.instrument }

/-- UI-reachable edit commands: the port combo only offers available
ports. -/
def opWF (ports : List String) : EditOp → Prop
  | .setSink _ ref => ref ∈ ports
  | _ => True

/-- Every track's sink is an available port, or there are no ports at all
(in which case it is unset, matching the fresh state's preselection). -/
def portOk (ports : List String) (tr : Track) : Prop :=
  match tr.midi_port with
  | none => ports = []
  | some s => s ∈ ports

def stInv (ports : List String) (st : EditorState) : Prop :=
  st.available_ports = ports ∧
  st.tracks.map Track.name = ["Track 1", "Track 2", "Track 3", "Track 4"] ∧
  ∀ tr ∈ st.tracks, portOk ports tr

theorem modifyIdx_map_eq {α β : Type} (f : α → α) (g : α → β)
    (hf : ∀ a, g (f a) = g a) :
    ∀ (i : ℕ) (l : List α), (modifyIdx f i l).map g = l.map g := by
  intro i l
  induction l generalizing i with
  | nil => cases i <;> rfl
  | cons a r ih =>
    cases i with
    | zero =>
      show g (f a) :: r.map g = g a :: r.map g
      rw [hf]
    | succ j =>
      show g a :: (modifyIdx f j r).map g = g a :: r.map g
      rw [ih]

theorem modifyIdx_forall {α : Type} (f : α → α) (P : α → Prop)
    (hf : ∀ a, P a → P (f a)) :
    ∀ (i : ℕ) (l : List α), (∀ a ∈ l, P a) → ∀ a ∈ modifyIdx f i l, P a := by
  intro i l
  induction l generalizing i with
  | nil => intro h a ha; cases i <;> cases ha
  | cons b r ih =>
    intro h a ha
    cases i with
    | zero =>
      rcases List.mem_cons.mp ha with rfl | ha
      · exact hf b (h b (List.mem_cons_self _ _))
      · exact h a (List.mem_cons_of_mem _ ha)
    | succ j =>
      rcases List.mem_cons.mp ha with rfl | ha
      · exact h a (List.mem_cons_self _ _)
      · exact ih j (fun a' ha' => h a' (List.mem_cons_of_mem _ ha')) a ha

theorem modifyIdx_modifyIdx {α : Type} (f g : α → α) :
    ∀ (i : ℕ) (l : List α),
      modifyIdx g i (modifyIdx f i l) = modifyIdx (fun a => g (f a)) i l := by
  intro i l
  induction l generalizing i with
  | nil => cases i <;> rfl
  | cons a r ih =>
    cases i with
    | zero => rfl
    | succ j =>
      show a :: modifyIdx g j (modifyIdx f j r) = a :: modifyIdx _ j r
      rw [ih]

theorem setTrackAt_available_ports (st : EditorState) (i : ℕ) (f : Track → Track) :
    (setTrackAt st i f).available_ports = st.available_ports := rfl

theorem setTrackAt_bpm (st : EditorState) (i : ℕ) (f : Track → Track) :
    (setTrackAt st i f).bpm = st.bpm := rfl

theorem setTrackAt_setTrackAt (st : EditorState) (i : ℕ) (f g : Track → Track) :
    setTrackAt (setTrackAt st i f) i g = setTrackAt st i (fun t => g (f t)) := by
  unfold setTrackAt
  simp only [modifyIdx_modifyIdx]

theorem setTrackAt_stInv (ports : List String) (st : EditorState) (i : ℕ)
    (f : Track → Track) (hname : ∀ a : Track, (f a).name = a.name)
    (hport : ∀ a : Track, portOk ports a → portOk ports (f a))
    (h : stInv ports st) : stInv ports (setTrackAt st i f) := by
  obtain ⟨hap, hnames, hports⟩ := h
  exact ⟨hap, (modifyIdx_map_eq f Track.name hname i st.tracks).trans hnames,
    modifyIdx_forall f (portOk ports) hport i st.tracks hports⟩

theorem stInv_init (ports : List String) : stInv ports (initState ports) := by
  refine ⟨rfl, rfl, ?_⟩
  have hp : ∀ (i : ℕ) (nm c : String), portOk ports (initTrack i nm c ports) := by
    intro i nm c
    cases ports with
    | nil => exact rfl
    | cons p r => exact List.mem_cons_self _ _
  intro tr htr
  simp only [initState, List.mem_cons, List.not_mem_nil, or_false] at htr
  rcases htr with rfl | rfl | rfl | rfl <;> exact hp _ _ _

theorem applyOp_stInv (ports : List String) (st : EditorState) (op : EditOp)
    (hwf : opWF ports op) (h : stInv ports st) :
    stInv ports (applyOp st op) := by
  cases op with
  | toggleNote p b =>
    exact setTrackAt_stInv _ _ _ _ (fun a => rfl) (fun a pa => pa) h
  | clearTrack =>
    exact setTrackAt_stInv _ _ _ _ (fun a => rfl) (fun a pa => pa) h
  | setActiveTrack tid => exact h
  | toggleMute tid =>
    exact setTrackAt_stInv _ _ _ _ (fun a => rfl) (fun a pa => pa) h
  | setChannel tid c =>
    exact setTrackAt_stInv _ _ _ _ (fun a => rfl) (fun a pa => pa) h
  | setInstrument tid v =>
    exact setTrackAt_stInv _ _ _ _ (fun a => rfl) (fun a pa => pa) h
  | setSink tid ref =>
    exact setTrackAt_stInv _ _ _ _ (fun a => rfl) (fun a _ => hwf) h
  | setBpm v =>
    show stInv ports (if 40 ≤ v ∧ v ≤ 240 then _ else st)
    by_cases hv : 40 ≤ v ∧ v ≤ 240
    · rw [if_pos hv]; exact h
    · rw [if_neg hv]; exact h

theorem applyOps_stInv (ports : List String) (ops : List EditOp)
    (st : EditorState) (hwf : ∀ op ∈ ops, opWF ports op)
    (h : stInv ports st) : stInv ports (applyOps ops st) := by
  induction ops generalizing st with
  | nil => exact h
  | cons op rest ih =>
    show stInv ports (applyOps rest (applyOp st op))
    exact ih (applyOp st op)
      (fun op' hop' => hwf op' (List.mem_cons_of_mem _ hop'))
      (applyOp_stInv ports st op (hwf op (List.mem_cons_self _ _)) h)

theorem parse_note_roundtrip (n : Note) :
    parse_note (note_to_json n) = some n := rfl

theorem parse_notes_roundtrip :
    ∀ ns : List Note, parse_notes (ns.map note_to_json) = some ns := by
  intro ns
  induction ns with
  | nil => rfl
  | cons n rest ih =>
    show parse_notes (note_to_json n :: rest.map note_to_json) = _
    rw [parse_notes, parse_note_roundtrip, ih]

theorem load_track_roundtrip (tr : Track) (i : ℕ) (st : EditorState)
    (hport : portOk st.available_ports tr) :
    load_track (track_to_json tr) i st =
      (setTrackAt st i (restoreFun tr), false) := by
  cases hmp : tr.midi_port with
  | some s =>
    have hmem : s ∈ st.available_ports := by
      unfold portOk at hport
      rw [hmp] at hport
      exact hport
    show load_track (JVal.jobj _) i st = _
    rw [load_track]
    simp only [track_to_json, hmp]
    simp only [jGetD, jGet, jAsNum, load_instrument, String.reduceEq, if_true,
      if_false, reduceIte, Option.getD_some]
    rw [parse_notes_roundtrip]
    dsimp only
    simp only [setTrackAt_available_ports, hmem, if_true, reduceIte]
    rw [setTrackAt_setTrackAt, setTrackAt_setTrackAt, setTrackAt_setTrackAt]
    unfold restoreFun
    rw [hmp]
  | none =>
    show load_track (JVal.jobj _) i st = _
    rw [load_track]
    simp only [track_to_json, hmp]
    simp only [jGetD, jGet, jAsNum, load_instrument, String.reduceEq, if_true,
      if_false, reduceIte, Option.getD_some]
    rw [parse_notes_roundtrip]
    dsimp only
    rw [setTrackAt_setTrackAt, setTrackAt_setTrackAt]
    unfold restoreFun
    rw [hmp]

theorem list_len4 {α : Type} (l : List α) (h : l.length = 4) :
    ∃ a b c d, l = [a, b, c, d] := by
  rcases l with _ | ⟨a, _ | ⟨b, _ | ⟨c, _ | ⟨d, _ | ⟨e, r⟩⟩⟩⟩⟩
  · simp at h
  · simp at h
  · simp at h
  · simp at h
  · exact ⟨a, b, c, d, rfl⟩
  · simp only [List.length_cons] at h
    omega

theorem load_tracks_nil (i : ℕ) (st : EditorState) :
    load_tracks [] i st = (st, false) := rfl

theorem restore_port_eq (ports : List String) (tr : Track)
    (hp : portOk ports tr) :
    (match tr.midi_port with
     | some s => some s
     | none => ports.head?) = tr.midi_port := by
  cases hmp : tr.midi_port with
  | some s => rfl
  | none =>
    unfold portOk at hp
    rw [hmp] at hp
    rw [hp]
    rfl

/-- Claim C9 counterexample: the mute flag is not persisted.  Starting
from the fresh state with no ports co start, muting track 0 and
round-tripping through save/load yields a state whose tracks are all
unmuted, so the loaded Sequence is not equal to the saved one on the mute
flag. -/
theorem C9_roundtrip_cx :
    (applyOps [.toggleMute 0] (initState [])).tracks.map Track.muted =
      [true, false, false, false] ∧
    (load_from_data (save_to_data (applyOps [.toggleMute 0] (initState [])))
        (initState [])).1.tracks.map Track.muted =
      [false, false, false, false] ∧
    ([true, false, false, false] ≠ ([false, false, false, false] : List Bool)) := by
  with_unfolding_all decide

/-- Claim C9 (amended): for every Sequence built purely from the
documented edit operations (with sink selections drawn from the available
ports, as the UI enforces), `deserialize(serialize(seq))` into a fresh
editor succeeds and agrees with `seq` on everything the format persists:
`bpm` and each track's name, sink, channel, instrument and notes.  The
mute flags and the active-track selection are *not* persisted (the saved
document has no such fields) and come out at their defaults. -/
theorem C9_amended_roundtrip (ports : List String) (ops : List EditOp)
    (hwf : ∀ op ∈ ops, opWF ports op) :
    (load_from_data (save_to_data (applyOps ops (initState ports)))
        (initState ports)).2 = false ∧
    (load_from_data (save_to_data (applyOps ops (initState ports)))
        (initState ports)).1.bpm = (applyOps ops (initState ports)).bpm ∧
    (load_from_data (save_to_data (applyOps ops (initState ports)))
        (initState ports)).1.tracks.map persistedFields =
      (applyOps ops (initState ports)).tracks.map persistedFields := by
  obtain ⟨hap, hnames, hports⟩ :=
    applyOps_stInv ports ops (initState ports) hwf (stInv_init ports)
  obtain ⟨t0, t1, t2, t3, htracks⟩ :=
    list_len4 (applyOps ops (initState ports)).tracks
      (by have := congrArg List.length hnames; simpa using this)
  have hp0 : portOk ports t0 := hports t0 (by rw [htracks]; simp)
  have hp1 : portOk ports t1 := hports t1 (by rw [htracks]; simp)
  have hp2 : portOk ports t2 := hports t2 (by rw [htracks]; simp)
  have hp3 : portOk ports t3 := hports t3 (by rw [htracks]; simp)
  rw [htracks] at hnames
  simp only [List.map_cons, List.map_nil, List.cons.injEq, and_true] at hnames
  rw [save_to_data, htracks]
  rw [load_from_data]
  simp only [jGetD, jGet, jAsNum, String.reduceEq, if_true, if_false, reduceIte,
    Option.getD_some, List.map_cons, List.map_nil, List.take_succ_cons,
    List.take_nil]
  rw [load_tracks, load_track_roundtrip t0 0 _ hp0]
  dsimp only
  rw [load_tracks, load_track_roundtrip t1 1 _ hp1]
  dsimp only
  rw [load_tracks, load_track_roundtrip t2 2 _ hp2]
  dsimp only
  rw [load_tracks, load_track_roundtrip t3 3 _ hp3]
  dsimp only
  rw [load_tracks_nil]
  refine ⟨rfl, rfl, ?_⟩
  simp only [setTrackAt, modifyIdx, initState, initTrack]
  simp only [List.map_cons, List.map_nil, persistedFields, restoreFun]
  rw [restore_port_eq ports t0 hp0, restore_port_eq ports t1 hp1,
    restore_port_eq ports t2 hp2, restore_port_eq ports t3 hp3,
    hnames.1, hnames.2.1, hnames.2.2.1, hnames.2.2.2]

/-- Witness for the amended C9: a concrete edit session (select a sink,
set the BPM to 90, toggle a note) round-trips on the persisted fields. -/
theorem C9_amended_roundtrip_witness :
    (load_from_data (save_to_data (applyOps
        [.setSink 0 "p", .setBpm 90, .toggleNote 60 (1/4)] (initState ["p"])))
      (initState ["p"])).2 = false ∧
    (load_from_data (save_to_data (applyOps
        [.setSink 0 "p", .setBpm 90, .toggleNote 60 (1/4)] (initState ["p"])))
      (initState ["p"])).1.bpm =
      (applyOps [.setSink 0 "p", .setBpm 90, .toggleNote 60 (1/4)]
        (initState ["p"])).bpm ∧
    (load_from_data (save_to_data (applyOps
        [.setSink 0 "p", .setBpm 90, .toggleNote 60 (1/4)] (initState ["p"])))
      (initState ["p"])).1.tracks.map persistedFields =
      (applyOps [.setSink 0 "p", .setBpm 90, .toggleNote 60 (1/4)]
        (initState ["p"])).tracks.map persistedFields :=
  C9_amended_roundtrip ["p"] [.setSink 0 "p", .setBpm 90, .toggleNote 60 (1/4)]
    (by intro op hop
        simp only [List.mem_cons, List.not_mem_nil, or_false] at hop
        rcases hop with rfl | rfl | rfl
        · exact List.mem_cons_self _ _
        · exact trivial
        · exact trivial)

end MidiEditor
